import Mathlib

/-!
Verification of the core of `app.py` (Monte Carlo simulation of the Dunning-Kruger
experiment).

The program draws two correlated vectors of float samples, converts each vector to
a percentile column via a double `argsort` followed by `* 100 // n_participants`,
and attaches quartile labels to each percentile column with polars
`qcut(4, labels=("Bottom", "2nd", "3rd", "Top"))`.

Modelling conventions:

* Float values are modelled as rationals.  All quantities the claims speak about
  (percentiles, quartile labels, group means of percentiles) are exact in float
  arithmetic for the ranges involved, so ℚ is a faithful carrier.
* Rational arithmetic is written with the helpers `qadd`, `qmul`, `qsub`, `qdiv`
  below, which are proved equal to `+`, `*`, `-`, `/` on ℚ (the library marks the
  instance operations irreducible, which would block kernel evaluation of the
  model on concrete inputs; the helpers keep the model executable).
* The numpy PCG64 bitstream behind `np.random.default_rng(seed)` is external to
  the repository; the draws are modelled as a fixed deterministic function of the
  seed and the draw position, which is the only property any claim relies on.
* Library failure modes are modelled from the library semantics the code runs
  against: `np.random.default_rng(seed)` raises for a negative seed (numpy
  `SeedSequence` rejects negative entropy) before anything else runs,
  `rng.normal(size=n)` raises for negative `n`, and polars `qcut` with
  the default `allow_duplicates=False` raises when the computed quantile
  breakpoints contain duplicates, while an empty column passes through `qcut`
  (all-null early return).
-/

namespace DunningKruger

/- Definitions: the embedding of app.py and the auxiliary notions the theorems
use. -/


/-- Kernel-computable addition on ℚ; equals `+` (see `qadd_eq`). -/
def qadd (a b : ℚ) : ℚ := Rat.divInt (a.num * b.den + b.num * a.den) (a.den * b.den)

/-- Kernel-computable multiplication on ℚ; equals `*` (see `qmul_eq`). -/
def qmul (a b : ℚ) : ℚ := Rat.divInt (a.num * b.num) (a.den * b.den)

/-- Kernel-computable subtraction on ℚ; equals `-` (see `qsub_eq`). -/
def qsub (a b : ℚ) : ℚ := Rat.divInt (a.num * b.den - b.num * a.den) (a.den * b.den)

/-- Kernel-computable division on ℚ; equals `/` (see `qdiv_eq`). -/
def qdiv (a b : ℚ) : ℚ := Rat.divInt (a.num * b.den) (a.den * b.num)

/-- The four quartile labels `QUARTILES = ("Bottom", "2nd", "3rd", "Top")` of app.py. -/
inductive Quartile
  | Bottom
  | Second
  | Third
  | Top
deriving DecidableEq

/-- Position of a quartile label in the ascending label order
Bottom < 2nd < 3rd < Top. -/
def qidx : Quartile → ℕ
  | .Bottom => 0
  | .Second => 1
  | .Third => 2
  | .Top => 3

/-- Label attached to bin index 0..3 by `qcut(4, labels=QUARTILES)`. -/
def quartileOfIdx : ℕ → Quartile
  | 0 => .Bottom
  | 1 => .Second
  | 2 => .Third
  | _ => .Top

/-- Sort key order of `argsort` on positions: position `j` sorts strictly before
position `i` when its value is smaller, ties between equal values resolved by
original position (a stable tie order; the claims do not depend on the tie
order). -/
def keyLt (xs : List ℚ) (j i : ℕ) : Prop :=
  xs.getD j 0 < xs.getD i 0 ∨ (xs.getD j 0 = xs.getD i 0 ∧ j < i)

instance (xs : List ℚ) (j i : ℕ) : Decidable (keyLt xs j i) :=
  inferInstanceAs (Decidable (xs.getD j 0 < xs.getD i 0 ∨ (xs.getD j 0 = xs.getD i 0 ∧ j < i)))

/-- Model of `xs.argsort().argsort()` at position `i`: the rank of `xs[i]`, i.e.
the number of positions whose key sorts strictly before the key of position
`i`. -/
def rank (xs : List ℚ) (i : ℕ) : ℕ :=
  ((List.range xs.length).filter (fun j => decide (keyLt xs j i))).length

/-- Model of the whole rank column `xs.argsort().argsort()`. -/
def ranks (xs : List ℚ) : List ℕ := (List.range xs.length).map (rank xs)

/-- Model of `rank * 100 // n_participants` (floor division). -/
def percentileOfRank (n r : ℕ) : ℕ := r * 100 / n

/-- Model of the percentile column `xs.argsort().argsort() * 100 // n_participants`. -/
def percentiles (xs : List ℚ) : List ℕ :=
  (ranks xs).map (percentileOfRank xs.length)

/-- Model of the ascending sort of a column (polars sorts the column inside `qcut`
before computing quantiles). -/
def sortAsc (l : List ℚ) : List ℚ := l.insertionSort (· ≤ ·)

/-- Model of polars `quantile(p, interpolation="linear")` on an already sorted
column `s`: position `h = p*(len-1)`, value `s[lo] + (h-lo)*(s[lo+1]-s[lo])` with
`lo = floor h`. -/
def quantileLinear (s : List ℚ) (p : ℚ) : ℚ :=
  let h : ℚ := qmul p (qsub ((s.length : ℕ) : ℚ) 1)
  let lo : ℕ := ⌊h⌋₊
  let x0 := s.getD lo 0
  let x1 := s.getD (lo + 1) x0
  qadd x0 (qmul (qsub h ((lo : ℕ) : ℚ)) (qsub x1 x0))

/-- Model of the three interior breakpoints of `qcut(4)`: the 1/4, 2/4, 3/4
quantiles of the sorted column. -/
def qbreaks (l : List ℚ) : List ℚ :=
  [quantileLinear (sortAsc l) (Rat.divInt 1 4),
   quantileLinear (sortAsc l) (Rat.divInt 2 4),
   quantileLinear (sortAsc l) (Rat.divInt 3 4)]

/-- Model of bin assignment for the right-closed bins
`(-inf,b1], (b1,b2], (b2,b3], (b3,inf)` used by polars `qcut` with the default
`left_closed=False`: the bin index of `v` is the number of breakpoints strictly
below `v`. -/
def binOf (breaks : List ℚ) (v : ℚ) : ℕ :=
  (breaks.filter (fun b => decide (b < v))).length

/-- Failure modes of `generate_data`: `np.random.default_rng` rejects a negative
seed (`ValueError: expected non-negative integer`, raised by numpy
`SeedSequence`), numpy rejects a negative sample size
(`ValueError: negative dimensions are not allowed`), and polars `qcut` with the
default `allow_duplicates=False` rejects duplicated quantile breakpoints
(`DuplicateError`). -/
inductive GenError
  | negativeSeed
  | negativeSize
  | duplicateBreaks
deriving DecidableEq

deriving instance DecidableEq for Except

/-- Model of `col.qcut(4, labels=QUARTILES)`: an empty column passes through (the
all-null early return of polars), otherwise the three quantile breakpoints are
computed from the sorted column, must be pairwise distinct
(`allow_duplicates=False`; the quantiles are nondecreasing in p, so distinctness
of neighbours is distinctness), and every value of the column is labelled with its
right-closed bin. -/
def qcut4 (l : List ℚ) : Except GenError (List Quartile) :=
  if l.isEmpty then .ok []
  else
    match qbreaks l with
    | [b1, b2, b3] =>
        if b1 < b2 ∧ b2 < b3 then
          .ok (l.map (fun v => quartileOfIdx (binOf [b1, b2, b3] v)))
        else .error .duplicateBreaks
    | _ => .error .duplicateBreaks

/-- Columns of the DataFrame built by `generate_data`. -/
structure Frame where
  test_score_percentile : List ℕ
  perceived_ability_percentile : List ℕ
  test_score_quartile : List Quartile
  perceived_ability_quartile : List Quartile
deriving DecidableEq

/-- Integer percentile column viewed as the float column polars casts it to inside
`qcut`. -/
def natsToQ (l : List ℕ) : List ℚ := l.map (fun k => ((k : ℕ) : ℚ))

/-- Structural-recursion square root on ℕ (the library's `Nat.sqrt` is defined by
well-founded recursion, which blocks kernel evaluation). -/
def sqrtN (n : ℕ) : ℕ := ((List.range (n + 1)).filter (fun k => k * k ≤ n)).length - 1

/-- Model of `np.sqrt` on the rational carrier; exact at ratios of perfect squares.
The only value any claim depends on is `sqrtQ 0 = 0`, where float sqrt is also
exact. -/
def sqrtQ (q : ℚ) : ℚ := Rat.divInt (sqrtN q.num.toNat) (sqrtN q.den)

/-- Model of `perceived_ability = corr_coef * test_score +
sqrt(1 - corr_coef * corr_coef) * noise`, elementwise over the two sample
vectors. -/
def perceivedAbility (c : ℚ) (test noise : List ℚ) : List ℚ :=
  List.zipWith (fun t e => qadd (qmul c t) (qmul (sqrtQ (qsub 1 (qmul c c))) e)) test noise

/-- Model of the body of `generate_data` after the two normal draws: the DataFrame
of the two percentile columns, then `with_columns` of the two `qcut(4)` quartile
columns. -/
def generate_from (c : ℚ) (test noise : List ℚ) : Except GenError Frame :=
  let pa := perceivedAbility c test noise
  let tp := percentiles test
  let pp := percentiles pa
  match qcut4 (natsToQ tp), qcut4 (natsToQ pp) with
  | .ok tq, .ok pq => .ok ⟨tp, pp, tq, pq⟩
  | .error e, _ => .error e
  | .ok _, .error e => .error e

/-- Model of the normal draws of the call-local `np.random.default_rng(seed)`:
the PCG64 bitstream is external to this repository, so the k-th draw of the
generator is modelled as a fixed deterministic function of the seed and the
position k.  No claim depends on the drawn values, only on the stream being a
function of the seed alone. -/
def normalSample (seed : ℤ) (k : ℕ) : ℚ :=
  (((seed + k) * (seed + 2 * k + 3) % 1009 - 500 : ℤ) : ℚ)

/-- Model of `rng.normal(size=cnt)` when `start` draws have already been consumed
from the generator: the next `cnt` draws of the seeded stream. -/
def normalDraws (seed : ℤ) (start cnt : ℕ) : List ℚ :=
  (List.range cnt).map (fun i => normalSample seed (start + i))

/-- Model of `generate_data(corr_coef, n_participants, random_seed)` of app.py:
`rng = np.random.default_rng(random_seed)` is local to the call and raises for a
negative seed before any sampling; then `rng.normal(size=n)` raises for negative
`n`; otherwise the test-score vector is drawn first, the noise vector second,
and the frame is built as in the source. -/
def generate_data (c : ℚ) (n_participants : ℤ) (seed : ℤ) : Except GenError Frame :=
  if seed < 0 then .error .negativeSeed
  else if n_participants < 0 then .error .negativeSize
  else
    let n := n_participants.toNat
    generate_from c (normalDraws seed 0 n) (normalDraws seed n n)

/-- Hypothetical process-wide interpreter state visible to a call of
`generate_data` (for example the global numpy generator that
`np.random.default_rng` avoids).  The call constructs its own generator from the
seed, so the state is neither read nor written. -/
structure ProcessState where
  globalRngPos : ℕ
deriving DecidableEq

/-- Model of invoking `generate_data` inside a process: the result is a function
of the arguments alone and the process state passes through unchanged. -/
def generate_data_call (w : ProcessState) (c : ℚ) (n_participants : ℤ) (seed : ℤ) :
    Except GenError Frame × ProcessState :=
  (generate_data c n_participants seed, w)

/-- Sorted percentile column of `n` participants: the multiset of ranks is
`0..n-1`, so the sorted percentiles are `k*100/n` for `k = 0..n-1`. -/
def canonPercentiles (n : ℕ) : List ℕ := (List.range n).map (fun k => k * 100 / n)

/-- Sorted percentile column as the float column seen by `qcut`. -/
def canQ (n : ℕ) : List ℚ := natsToQ (canonPercentiles n)

/-- Bin label of a value in `qcut(4)` of column `l`. -/
def labelOf (l : List ℚ) : ℚ → Quartile := fun v => quartileOfIdx (binOf (qbreaks l) v)

/-- Grouping column accepted by `create_quartile_chart`. -/
inductive GroupCol
  | testScoreQuartile
  | perceivedAbilityQuartile
deriving DecidableEq

/-- The chosen quartile column of the frame. -/
def quartileColumn (fr : Frame) : GroupCol → List Quartile
  | .testScoreQuartile => fr.test_score_quartile
  | .perceivedAbilityQuartile => fr.perceived_ability_quartile

/-- One row of the melted aggregation table of `create_quartile_chart`. -/
structure AvgRow where
  quartile : Quartile
  varName : String
  average : ℚ
deriving DecidableEq

/-- Arithmetic mean of a column of percentiles (polars float mean, modelled
exactly on ℚ). -/
def meanQ (l : List ℕ) : ℚ := qdiv ((l.sum : ℕ) : ℚ) ((l.length : ℕ) : ℚ)

/-- Model of the `select` of `create_quartile_chart`: the grouping column paired
with the two percentile columns renamed `test_score` / `perceived_ability`, one
triple per participant row. -/
def selectRows (fr : Frame) (g : GroupCol) : List (Quartile × ℕ × ℕ) :=
  (quartileColumn fr g).zip (fr.test_score_percentile.zip fr.perceived_ability_percentile)

/-- Distinct group keys of the rows; polars `group_by` emits one aggregated row
per distinct key, in an unspecified order no claim depends on. -/
def groupKeys (rows : List (Quartile × ℕ × ℕ)) : List Quartile := (rows.map Prod.fst).dedup

/-- The participant rows of one quartile group. -/
def groupRows (rows : List (Quartile × ℕ × ℕ)) (q : Quartile) : List (Quartile × ℕ × ℕ) :=
  rows.filter (fun r => decide (r.1 = q))

/-- Model of `group_by(quartile_col).mean()`: one row per present group holding
the mean of each of the two value columns over that group. -/
def groupByMean (rows : List (Quartile × ℕ × ℕ)) : List (Quartile × ℚ × ℚ) :=
  (groupKeys rows).map (fun q =>
    (q, meanQ ((groupRows rows q).map (fun r => r.2.1)),
        meanQ ((groupRows rows q).map (fun r => r.2.2))))

/-- Model of `melt(id_vars=quartile_col, value_name="average")`: one output row
per (group, variable) pair. -/
def meltAvg (t : List (Quartile × ℚ × ℚ)) : List AvgRow :=
  t.map (fun r => ⟨r.1, "test_score", r.2.1⟩) ++
  t.map (fun r => ⟨r.1, "perceived_ability", r.2.2⟩)

/-- Model of the data pipeline of `create_quartile_chart` (select, group_by,
mean, melt); the chart object renders exactly this table. -/
def create_quartile_chart_data (fr : Frame) (g : GroupCol) : List AvgRow :=
  meltAvg (groupByMean (selectRows fr g))

/-- Concrete output of `generate_from 0 [2,1,3] [0,0,0]`. -/
def frameW1 : Frame :=
  ⟨[33, 0, 66], [0, 33, 66],
   [.Second, .Bottom, .Top], [.Bottom, .Second, .Top]⟩

/-- Concrete output of `generate_data (1/2) 4 42`. -/
def frameW24 : Frame :=
  ⟨[75, 0, 25, 50], [75, 0, 25, 50],
   [.Top, .Bottom, .Second, .Third], [.Top, .Bottom, .Second, .Third]⟩

/-- Concrete output of `generate_data 1 4 5`. -/
def frameW45 : Frame :=
  ⟨[0, 25, 50, 75], [0, 25, 50, 75],
   [.Bottom, .Second, .Third, .Top], [.Bottom, .Second, .Third, .Top]⟩

/-- Concrete frame used by the witness of the quartile-average view. -/
def frameW8 : Frame :=
  ⟨[10, 20], [30, 40], [.Bottom, .Top], [.Second, .Third]⟩

/- Theorems: general lemmas about the embedding, followed by the claim
theorems with their counterexamples and witnesses. -/

theorem qadd_eq (a b : ℚ) : qadd a b = a + b := by
  conv_rhs => rw [← Rat.num_divInt_den a, ← Rat.num_divInt_den b,
    Rat.divInt_add_divInt _ _ (by exact_mod_cast a.den_nz) (by exact_mod_cast b.den_nz)]
  rfl

theorem qmul_eq (a b : ℚ) : qmul a b = a * b := by
  conv_rhs => rw [← Rat.num_divInt_den a, ← Rat.num_divInt_den b,
    Rat.divInt_mul_divInt _ _ (by exact_mod_cast a.den_nz) (by exact_mod_cast b.den_nz)]
  rfl

theorem qsub_eq (a b : ℚ) : qsub a b = a - b := by
  conv_rhs => rw [sub_eq_add_neg, ← Rat.num_divInt_den a, ← Rat.num_divInt_den b,
    Rat.neg_divInt,
    Rat.divInt_add_divInt _ _ (by exact_mod_cast a.den_nz) (by exact_mod_cast b.den_nz)]
  rw [qsub]
  congr 1
  ring

theorem qdiv_eq (a b : ℚ) : qdiv a b = a / b := by
  conv_rhs => rw [← Rat.num_divInt_den a, ← Rat.num_divInt_den b, Rat.divInt_div_divInt]
  rfl

theorem length_filter_le_of_imp {α : Type} {p q : α → Bool} {l : List α}
    (h : ∀ a ∈ l, p a = true → q a = true) :
    (l.filter p).length ≤ (l.filter q).length := by
  rw [← List.countP_eq_length_filter, ← List.countP_eq_length_filter]
  exact List.countP_mono_left h

theorem length_filter_lt_of_imp {α : Type} {p q : α → Bool} {l : List α} {k : α}
    (hk : k ∈ l) (hkp : p k = false) (hkq : q k = true)
    (h : ∀ a ∈ l, p a = true → q a = true) :
    (l.filter p).length < (l.filter q).length := by
  induction l with
  | nil => cases hk
  | cons x xs ih =>
      rcases List.mem_cons.mp hk with rfl | hk'
      · rw [List.filter_cons, List.filter_cons, hkp, hkq]
        simp only [if_true, if_false, List.length_cons]
        exact Nat.lt_succ_of_le (length_filter_le_of_imp (fun a ha => h a (List.mem_cons_of_mem _ ha)))
      · have h' : ∀ a ∈ xs, p a = true → q a = true :=
          fun a ha => h a (List.mem_cons_of_mem _ ha)
        have hlt := ih hk' h'
        rw [List.filter_cons, List.filter_cons]
        by_cases hpx : p x = true
        · rw [hpx, h x (List.mem_cons_self x xs) hpx]
          simpa using Nat.succ_lt_succ hlt
        · rw [Bool.not_eq_true] at hpx
          rw [hpx]
          by_cases hqx : q x = true
          · rw [hqx]
            simp only [List.length_cons]
            exact Nat.lt_succ_of_lt hlt
          · rw [Bool.not_eq_true] at hqx
            rw [hqx]
            simpa using hlt

theorem getD_map_range {α : Type} (f : ℕ → α) {k n : ℕ} (hk : k < n) (d : α) :
    (((List.range n).map f).getD k d) = f k := by
  rw [List.getD_eq_getElem?_getD, List.getElem?_map, List.getElem?_range hk]
  rfl

theorem getD_map_of_lt {α β : Type} (f : α → β) (l : List α) {i : ℕ}
    (hi : i < l.length) (d : β) (d' : α) :
    (l.map f).getD i d = f (l.getD i d') := by
  rw [List.getD_eq_getElem?_getD, List.getD_eq_getElem?_getD, List.getElem?_map,
    List.getElem?_eq_getElem hi]
  rfl

theorem keyLt_irrefl (xs : List ℚ) (i : ℕ) : ¬ keyLt xs i i := by
  rintro (h | ⟨-, h⟩)
  · exact lt_irrefl _ h
  · exact Nat.lt_irrefl _ h

theorem keyLt_trans {xs : List ℚ} {a b c : ℕ} (h1 : keyLt xs a b) (h2 : keyLt xs b c) :
    keyLt xs a c := by
  rcases h1 with h1 | ⟨e1, l1⟩
  · rcases h2 with h2 | ⟨e2, l2⟩
    · exact Or.inl (lt_trans h1 h2)
    · exact Or.inl (e2 ▸ h1)
  · rcases h2 with h2 | ⟨e2, l2⟩
    · exact Or.inl (e1 ▸ h2)
    · exact Or.inr ⟨e1.trans e2, Nat.lt_trans l1 l2⟩

theorem keyLt_total {xs : List ℚ} {i j : ℕ} (hne : i ≠ j) :
    keyLt xs i j ∨ keyLt xs j i := by
  rcases lt_trichotomy (xs.getD i 0) (xs.getD j 0) with h | h | h
  · exact Or.inl (Or.inl h)
  · rcases Nat.lt_or_ge i j with hij | hij
    · exact Or.inl (Or.inr ⟨h, hij⟩)
    · exact Or.inr (Or.inr ⟨h.symm, Nat.lt_of_le_of_ne hij (Ne.symm hne)⟩)
  · exact Or.inr (Or.inl h)

theorem rank_lt_length (xs : List ℚ) {i : ℕ} (hi : i < xs.length) :
    rank xs i < xs.length := by
  have h := @length_filter_lt_of_imp ℕ (fun j => decide (keyLt xs j i))
    (fun _ => true) (List.range xs.length) i
    (List.mem_range.mpr hi) (by simp [keyLt_irrefl]) rfl (fun a _ _ => rfl)
  simpa using h

theorem rank_lt_rank {xs : List ℚ} {i j : ℕ} (hi : i < xs.length)
    (hij : keyLt xs i j) : rank xs i < rank xs j := by
  refine length_filter_lt_of_imp (List.mem_range.mpr hi) ?_ (by simpa using hij) ?_
  · simp [keyLt_irrefl]
  · intro a _ ha
    rw [decide_eq_true_eq] at ha ⊢
    exact keyLt_trans ha hij

theorem rank_le_rank {xs : List ℚ} {i j : ℕ} (hij : keyLt xs i j) :
    rank xs i ≤ rank xs j := by
  apply length_filter_le_of_imp
  intro a _ ha
  rw [decide_eq_true_eq] at ha ⊢
  exact keyLt_trans ha hij

theorem ranks_getD (xs : List ℚ) {i : ℕ} (hi : i < xs.length) :
    (ranks xs).getD i 0 = rank xs i := by
  rw [ranks, getD_map_range _ hi]

theorem ranks_length (xs : List ℚ) : (ranks xs).length = xs.length := by
  rw [ranks, List.length_map, List.length_range]

theorem ranks_perm (xs : List ℚ) : (ranks xs).Perm (List.range xs.length) := by
  have hnodup : (ranks xs).Nodup := by
    refine List.Nodup.map_on ?_ (List.nodup_range _)
    intro i hi j hj hij
    by_contra hne
    rcases @keyLt_total xs i j hne with h | h
    · exact absurd hij (Nat.ne_of_lt (rank_lt_rank (List.mem_range.mp hi) h))
    · exact absurd hij.symm (Nat.ne_of_lt (rank_lt_rank (List.mem_range.mp hj) h))
  have hsub : (ranks xs) ⊆ List.range xs.length := by
    intro r hr
    rcases List.mem_map.mp hr with ⟨i, hi, rfl⟩
    exact List.mem_range.mpr (rank_lt_length xs (List.mem_range.mp hi))
  exact (hnodup.subperm hsub).perm_of_length_le (by rw [ranks_length, List.length_range])

theorem percentiles_length (xs : List ℚ) : (percentiles xs).length = xs.length := by
  rw [percentiles, List.length_map, ranks_length]

theorem percentiles_getD (xs : List ℚ) {i : ℕ} (hi : i < xs.length) :
    (percentiles xs).getD i 0 = percentileOfRank xs.length (rank xs i) := by
  rw [percentiles, getD_map_of_lt _ _ (by rw [ranks_length]; exact hi) 0 0, ranks_getD xs hi]

theorem percentiles_perm (xs : List ℚ) :
    (percentiles xs).Perm (canonPercentiles xs.length) := by
  have : canonPercentiles xs.length = (List.range xs.length).map (percentileOfRank xs.length) := rfl
  rw [percentiles, this]
  exact (ranks_perm xs).map _

theorem canonPercentiles_sorted (n : ℕ) : List.Sorted (· ≤ ·) (canonPercentiles n) := by
  unfold canonPercentiles
  refine List.Pairwise.map _ ?_ (List.pairwise_lt_range n)
  intro a b hab
  exact Nat.div_le_div_right (Nat.mul_le_mul_right _ (le_of_lt hab))

theorem canQ_sorted (n : ℕ) : List.Sorted (· ≤ ·) (canQ n) := by
  unfold canQ natsToQ
  refine List.Pairwise.map _ ?_ (canonPercentiles_sorted n)
  intro a b hab
  exact_mod_cast hab

theorem sortAsc_sorted (l : List ℚ) : List.Sorted (· ≤ ·) (sortAsc l) :=
  List.sorted_insertionSort _ l

theorem sortAsc_perm (l : List ℚ) : (sortAsc l).Perm l :=
  List.perm_insertionSort _ l

theorem sortAsc_eq_of_perm {l : List ℚ} {n : ℕ} (h : l.Perm (canQ n)) :
    sortAsc l = canQ n :=
  List.eq_of_perm_of_sorted ((sortAsc_perm l).trans h) (sortAsc_sorted l) (canQ_sorted n)

theorem canQ_length (n : ℕ) : (canQ n).length = n := by
  rw [canQ, natsToQ, canonPercentiles, List.length_map, List.length_map, List.length_range]

theorem canQ_getD {n k : ℕ} (hk : k < n) (d : ℚ) :
    (canQ n).getD k d = ((k * 100 / n : ℕ) : ℚ) := by
  rw [canQ, natsToQ, canonPercentiles, List.map_map]
  exact getD_map_range _ hk d

theorem natsToQ_length (l : List ℕ) : (natsToQ l).length = l.length := by
  rw [natsToQ, List.length_map]

theorem percentiles_natsToQ_perm (xs : List ℚ) {n : ℕ} (hlen : xs.length = n) :
    (natsToQ (percentiles xs)).Perm (canQ n) := by
  have := (percentiles_perm xs).map (fun k => ((k : ℕ) : ℚ))
  rw [hlen] at this
  exact this

theorem nat_div_lt_div {a b n : ℕ} (hn : 0 < n) (h : a + n ≤ b) : a / n < b / n := by
  have h1 : (a + n) / n = a / n + 1 := Nat.add_div_right a hn
  exact Nat.lt_of_lt_of_le (h1 ▸ Nat.lt_succ_self (a / n)) (Nat.div_le_div_right h)

theorem quantileLinear_bounds_general (s : List ℚ) (p : ℚ)
    (h0 : 0 ≤ p * ((s.length : ℚ) - 1))
    (hx : s.getD ⌊p * ((s.length : ℚ) - 1)⌋₊ 0 ≤
      s.getD (⌊p * ((s.length : ℚ) - 1)⌋₊ + 1) (s.getD ⌊p * ((s.length : ℚ) - 1)⌋₊ 0)) :
    s.getD ⌊p * ((s.length : ℚ) - 1)⌋₊ 0 ≤ quantileLinear s p ∧
    quantileLinear s p ≤
      s.getD (⌊p * ((s.length : ℚ) - 1)⌋₊ + 1) (s.getD ⌊p * ((s.length : ℚ) - 1)⌋₊ 0) := by
  simp only [quantileLinear, qadd_eq, qmul_eq, qsub_eq]
  constructor
  · exact le_add_of_nonneg_right
      (mul_nonneg (sub_nonneg.mpr (Nat.floor_le h0)) (sub_nonneg.mpr hx))
  · have h1 : p * ((s.length : ℚ) - 1) - (⌊p * ((s.length : ℚ) - 1)⌋₊ : ℚ) ≤ 1 := by
      have := Nat.lt_floor_add_one (p * ((s.length : ℚ) - 1))
      linarith
    have h2 := mul_le_mul_of_nonneg_right h1 (sub_nonneg.mpr hx)
    rw [one_mul] at h2
    linarith

theorem canQ_break_floor {n : ℕ} (hn : 2 ≤ n) (i : ℕ) :
    ⌊Rat.divInt (i : ℤ) 4 * (((canQ n).length : ℚ) - 1)⌋₊ = i * (n - 1) / 4 := by
  have harg : Rat.divInt (i : ℤ) 4 * (((canQ n).length : ℚ) - 1) =
      ((i * (n - 1) : ℕ) : ℚ) / ((4 : ℕ) : ℚ) := by
    rw [canQ_length, Rat.divInt_eq_div]
    push_cast [Nat.cast_sub (show (1 : ℕ) ≤ n by omega)]
    ring
  rw [harg, Nat.floor_div_nat, Nat.floor_natCast]

theorem canQ_break_bounds {n : ℕ} (hn : 2 ≤ n) (i : ℕ) (hi1 : 1 ≤ i) (hi3 : i ≤ 3) :
    (((i * (n - 1) / 4) * 100 / n : ℕ) : ℚ) ≤ quantileLinear (canQ n) (Rat.divInt i 4) ∧
    quantileLinear (canQ n) (Rat.divInt i 4) ≤ (((i * (n - 1) / 4 + 1) * 100 / n : ℕ) : ℚ) := by
  have hq3 : i * (n - 1) / 4 ≤ 3 * (n - 1) / 4 :=
    Nat.div_le_div_right (Nat.mul_le_mul_right _ hi3)
  have hqn : i * (n - 1) / 4 + 1 < n := by omega
  have hcast : (((n : ℕ) : ℚ) - 1) = (((n - 1 : ℕ) : ℕ) : ℚ) := by
    have : (1 : ℕ) ≤ n := by omega
    push_cast [Nat.cast_sub this]
    ring
  have hfloor := canQ_break_floor hn i
  have h0 : 0 ≤ Rat.divInt (i : ℤ) 4 * (((canQ n).length : ℚ) - 1) := by
    rw [canQ_length, hcast, Rat.divInt_eq_div]
    have hi0 : (0 : ℚ) ≤ (i : ℤ) := by positivity
    positivity
  have hx0 : (canQ n).getD (i * (n - 1) / 4) 0 = (((i * (n - 1) / 4) * 100 / n : ℕ) : ℚ) :=
    canQ_getD (by omega) 0
  have hx1 : (canQ n).getD (i * (n - 1) / 4 + 1) ((canQ n).getD (i * (n - 1) / 4) 0) =
      (((i * (n - 1) / 4 + 1) * 100 / n : ℕ) : ℚ) :=
    canQ_getD hqn _
  have hmono : (((i * (n - 1) / 4) * 100 / n : ℕ) : ℚ) ≤ (((i * (n - 1) / 4 + 1) * 100 / n : ℕ) : ℚ) := by
    have : (i * (n - 1) / 4) * 100 / n ≤ (i * (n - 1) / 4 + 1) * 100 / n :=
      Nat.div_le_div_right (Nat.mul_le_mul_right _ (Nat.le_succ _))
    exact_mod_cast this
  rw [hx0] at hx1
  have hgen := quantileLinear_bounds_general (canQ n) (Rat.divInt (i : ℤ) 4) h0
    (by rw [hfloor, hx0, hx1]; exact hmono)
  rw [hfloor, hx0, hx1] at hgen
  exact hgen

theorem breaks_lt {n : ℕ} (hn : 2 ≤ n) :
    quantileLinear (canQ n) (Rat.divInt 1 4) < quantileLinear (canQ n) (Rat.divInt 2 4) ∧
    quantileLinear (canQ n) (Rat.divInt 2 4) < quantileLinear (canQ n) (Rat.divInt 3 4) := by
  by_cases h9 : n ≤ 8
  · interval_cases n <;> exact ⟨by decide, by decide⟩
  · push_neg at h9
    have b1u := (canQ_break_bounds hn 1 (by norm_num) (by norm_num)).2
    have b2l := (canQ_break_bounds hn 2 (by norm_num) (by norm_num)).1
    have b2u := (canQ_break_bounds hn 2 (by norm_num) (by norm_num)).2
    have b3l := (canQ_break_bounds hn 3 (by norm_num) (by norm_num)).1
    rw [show ((1 : ℕ) : ℤ) = (1 : ℤ) by norm_num] at b1u
    rw [show ((2 : ℕ) : ℤ) = (2 : ℤ) by norm_num] at b2l b2u
    rw [show ((3 : ℕ) : ℤ) = (3 : ℤ) by norm_num] at b3l
    have hmid1 : (1 * (n - 1) / 4 + 1) * 100 / n < 2 * (n - 1) / 4 * 100 / n := by
      apply nat_div_lt_div (by omega)
      omega
    have hmid2 : (2 * (n - 1) / 4 + 1) * 100 / n < 3 * (n - 1) / 4 * 100 / n := by
      apply nat_div_lt_div (by omega)
      omega
    constructor
    · calc quantileLinear (canQ n) (Rat.divInt 1 4)
          ≤ (((1 * (n - 1) / 4 + 1) * 100 / n : ℕ) : ℚ) := b1u
        _ < ((2 * (n - 1) / 4 * 100 / n : ℕ) : ℚ) := by exact_mod_cast hmid1
        _ ≤ quantileLinear (canQ n) (Rat.divInt 2 4) := b2l
    · calc quantileLinear (canQ n) (Rat.divInt 2 4)
          ≤ (((2 * (n - 1) / 4 + 1) * 100 / n : ℕ) : ℚ) := b2u
        _ < ((3 * (n - 1) / 4 * 100 / n : ℕ) : ℚ) := by exact_mod_cast hmid2
        _ ≤ quantileLinear (canQ n) (Rat.divInt 3 4) := b3l

theorem qcut4_ok_of_sort {l : List ℚ} {n : ℕ} (hn : 2 ≤ n) (hlen : l.length = n)
    (hsort : sortAsc l = canQ n) :
    qcut4 l = .ok (l.map (labelOf l)) := by
  have hbr := breaks_lt hn
  rw [← hsort] at hbr
  have hne : l.isEmpty = false := by
    cases l with
    | nil => rw [List.length_nil] at hlen; omega
    | cons a t => rfl
  unfold qcut4
  rw [hne]
  simp only [Bool.false_eq_true, if_false, qbreaks]
  rw [if_pos ⟨hbr.1, hbr.2⟩]
  rfl

theorem qcut4_ok_shape {l : List ℚ} {out : List Quartile} (h : qcut4 l = .ok out) :
    out = l.map (labelOf l) := by
  unfold qcut4 at h
  by_cases hemp : l.isEmpty
  · have : l = [] := List.isEmpty_iff.mp hemp
    subst this
    rw [if_pos hemp] at h
    injection h with h
    rw [← h]
    rfl
  · rw [Bool.not_eq_true] at hemp
    rw [hemp] at h
    simp only [Bool.false_eq_true, if_false, qbreaks, labelOf] at h
    split at h
    · injection h with h
      rw [← h]
      rfl
    · cases h

theorem qcut4_error_of_breaks {l : List ℚ} (hne : l.isEmpty = false)
    (hbr : ¬ (quantileLinear (sortAsc l) (Rat.divInt 1 4) < quantileLinear (sortAsc l) (Rat.divInt 2 4) ∧
      quantileLinear (sortAsc l) (Rat.divInt 2 4) < quantileLinear (sortAsc l) (Rat.divInt 3 4))) :
    qcut4 l = .error .duplicateBreaks := by
  unfold qcut4
  rw [hne]
  simp only [Bool.false_eq_true, if_false, qbreaks]
  rw [if_neg hbr]

theorem normalDraws_length (seed : ℤ) (start cnt : ℕ) :
    (normalDraws seed start cnt).length = cnt := by
  rw [normalDraws, List.length_map, List.length_range]

theorem perceivedAbility_length (c : ℚ) (test noise : List ℚ) :
    (perceivedAbility c test noise).length = min test.length noise.length := by
  rw [perceivedAbility, List.length_zipWith]

theorem generate_from_ok {c : ℚ} {test noise : List ℚ} {n : ℕ} (hn : 2 ≤ n)
    (hlt : test.length = n) (hle : noise.length = test.length) :
    generate_from c test noise =
      .ok ⟨percentiles test, percentiles (perceivedAbility c test noise),
           (natsToQ (percentiles test)).map (labelOf (natsToQ (percentiles test))),
           (natsToQ (percentiles (perceivedAbility c test noise))).map
             (labelOf (natsToQ (percentiles (perceivedAbility c test noise))))⟩ := by
  have hpa : (perceivedAbility c test noise).length = n := by
    rw [perceivedAbility_length, hle, hlt]
    exact min_self n
  have hq1 : qcut4 (natsToQ (percentiles test)) =
      .ok ((natsToQ (percentiles test)).map (labelOf (natsToQ (percentiles test)))) := by
    refine qcut4_ok_of_sort hn ?_ (sortAsc_eq_of_perm (percentiles_natsToQ_perm test hlt))
    rw [natsToQ_length, percentiles_length, hlt]
  have hq2 : qcut4 (natsToQ (percentiles (perceivedAbility c test noise))) =
      .ok ((natsToQ (percentiles (perceivedAbility c test noise))).map
        (labelOf (natsToQ (percentiles (perceivedAbility c test noise))))) := by
    refine qcut4_ok_of_sort hn ?_
      (sortAsc_eq_of_perm (percentiles_natsToQ_perm (perceivedAbility c test noise) hpa))
    rw [natsToQ_length, percentiles_length, hpa]
  simp only [generate_from]
  rw [hq1, hq2]

theorem generate_from_fields {c : ℚ} {test noise : List ℚ} {fr : Frame}
    (h : generate_from c test noise = .ok fr) :
    fr.test_score_percentile = percentiles test ∧
    fr.perceived_ability_percentile = percentiles (perceivedAbility c test noise) ∧
    qcut4 (natsToQ (percentiles test)) = .ok fr.test_score_quartile ∧
    qcut4 (natsToQ (percentiles (perceivedAbility c test noise))) =
      .ok fr.perceived_ability_quartile := by
  simp only [generate_from] at h
  cases h1 : qcut4 (natsToQ (percentiles test)) with
  | error e => rw [h1] at h; cases h
  | ok tq =>
      cases h2 : qcut4 (natsToQ (percentiles (perceivedAbility c test noise))) with
      | error e => rw [h1, h2] at h; cases h
      | ok pq =>
          rw [h1, h2] at h
          injection h with h
          subst h
          exact ⟨rfl, rfl, rfl, rfl⟩

theorem generate_data_badseed (c : ℚ) (n : ℤ) {seed : ℤ} (hs : seed < 0) :
    generate_data c n seed = .error .negativeSeed := by
  rw [generate_data, if_pos hs]

theorem generate_data_neg (c : ℚ) {n : ℤ} (hn : n < 0) {seed : ℤ} (hs : 0 ≤ seed) :
    generate_data c n seed = .error .negativeSize := by
  rw [generate_data, if_neg (by omega), if_pos hn]

theorem generate_data_nonneg (c : ℚ) {n : ℤ} (hn : 0 ≤ n) {seed : ℤ} (hs : 0 ≤ seed) :
    generate_data c n seed =
      generate_from c (normalDraws seed 0 n.toNat) (normalDraws seed n.toNat n.toNat) := by
  rw [generate_data, if_neg (by omega), if_neg (by omega)]

theorem generate_data_ok (c : ℚ) {n : ℕ} (hn : 2 ≤ n) {seed : ℤ} (hs : 0 ≤ seed) :
    ∃ fr : Frame, generate_data c (n : ℤ) seed = .ok fr := by
  rw [generate_data_nonneg c (by positivity) hs, Int.toNat_natCast]
  exact ⟨_, generate_from_ok hn (normalDraws_length seed 0 n)
    ((normalDraws_length seed n n).trans (normalDraws_length seed 0 n).symm)⟩

theorem percentiles_mono {xs : List ℚ} {i j : ℕ} (hi : i < xs.length) (hj : j < xs.length)
    (hv : xs.getD j 0 < xs.getD i 0) :
    (percentiles xs).getD j 0 ≤ (percentiles xs).getD i 0 := by
  rw [percentiles_getD xs hi, percentiles_getD xs hj]
  exact Nat.div_le_div_right
    (Nat.mul_le_mul_right _ (le_of_lt (rank_lt_rank hj (Or.inl hv))))

theorem binOf_mono (bs : List ℚ) {v w : ℚ} (hvw : v ≤ w) : binOf bs v ≤ binOf bs w := by
  apply length_filter_le_of_imp
  intro b _ hb
  rw [decide_eq_true_eq] at hb ⊢
  exact lt_of_lt_of_le hb hvw

theorem qidx_quartileOfIdx (k : ℕ) : qidx (quartileOfIdx k) = min k 3 := by
  match k with
  | 0 => rfl
  | 1 => rfl
  | 2 => rfl
  | (m + 3) =>
      show qidx Quartile.Top = min (m + 3) 3
      rw [show min (m + 3) 3 = 3 by omega]
      rfl

theorem labelOf_mono (l : List ℚ) {v w : ℚ} (hvw : v ≤ w) :
    qidx (labelOf l v) ≤ qidx (labelOf l w) := by
  simp only [labelOf, qidx_quartileOfIdx]
  exact min_le_min_right 3 (binOf_mono _ hvw)

theorem labelOf_congr {l l' : List ℚ} (h : sortAsc l = sortAsc l') : labelOf l = labelOf l' := by
  funext v
  rw [labelOf, labelOf, qbreaks, qbreaks, h]

theorem sortAsc_canQ (n : ℕ) : sortAsc (canQ n) = canQ n :=
  List.eq_of_perm_of_sorted (sortAsc_perm (canQ n)) (sortAsc_sorted (canQ n)) (canQ_sorted n)

/-- Quartile labels of a successful `qcut` at two positions with ordered
percentile values are themselves ordered. -/
theorem labels_mono {ps : List ℕ} {out : List Quartile} (hq : qcut4 (natsToQ ps) = .ok out)
    {i j : ℕ} (hi : i < ps.length) (hj : j < ps.length)
    (hle : ps.getD j 0 ≤ ps.getD i 0) :
    qidx (out.getD j .Bottom) ≤ qidx (out.getD i .Bottom) := by
  have hshape := qcut4_ok_shape hq
  subst hshape
  have hi' : i < (natsToQ ps).length := by rw [natsToQ_length]; exact hi
  have hj' : j < (natsToQ ps).length := by rw [natsToQ_length]; exact hj
  rw [getD_map_of_lt _ _ hi' _ 0, getD_map_of_lt _ _ hj' _ 0]
  rw [natsToQ, getD_map_of_lt _ _ hi _ 0, getD_map_of_lt _ _ hj _ 0]
  exact labelOf_mono _ (by exact_mod_cast hle)

theorem labels_congr {ps : List ℕ} {out : List Quartile} (hq : qcut4 (natsToQ ps) = .ok out)
    {i j : ℕ} (hi : i < ps.length) (hj : j < ps.length)
    (heq : ps.getD i 0 = ps.getD j 0) :
    out.getD i .Bottom = out.getD j .Bottom := by
  have hshape := qcut4_ok_shape hq
  subst hshape
  have hi' : i < (natsToQ ps).length := by rw [natsToQ_length]; exact hi
  have hj' : j < (natsToQ ps).length := by rw [natsToQ_length]; exact hj
  rw [getD_map_of_lt _ _ hi' _ 0, getD_map_of_lt _ _ hj' _ 0]
  rw [natsToQ, getD_map_of_lt _ _ hi _ 0, getD_map_of_lt _ _ hj _ 0]
  rw [heq]

theorem sqrtQ_zero : sqrtQ 0 = 0 := by decide

theorem perceivedAbility_one (test noise : List ℚ) (h : test.length ≤ noise.length) :
    perceivedAbility 1 test noise = test := by
  induction test generalizing noise with
  | nil => rfl
  | cons t ts ih =>
      cases noise with
      | nil => rw [List.length_cons, List.length_nil] at h; omega
      | cons e es =>
          rw [perceivedAbility, List.zipWith_cons_cons]
          have hhead : qadd (qmul 1 t) (qmul (sqrtQ (qsub 1 (qmul 1 1))) e) = t := by
            have h0 : qsub 1 (qmul 1 1) = 0 := by
              rw [qsub_eq, qmul_eq]
              norm_num
            rw [h0, sqrtQ_zero, qadd_eq, qmul_eq, qmul_eq]
            ring
          rw [hhead]
          have htail := ih es (by
            rw [List.length_cons, List.length_cons] at h
            omega)
          rw [perceivedAbility] at htail
          rw [htail]

theorem percentiles_singleton (x : ℚ) : percentiles [x] = [0] := by
  have hr : rank [x] 0 = 0 := by
    rw [rank]
    rw [show ([x] : List ℚ).length = 1 from rfl]
    rw [show List.range 1 = [0] from rfl]
    rw [List.filter_cons, List.filter_nil]
    rw [decide_eq_false (keyLt_irrefl [x] 0)]
    rfl
  rw [percentiles, ranks]
  rw [show ([x] : List ℚ).length = 1 from rfl]
  rw [show List.range 1 = [0] from rfl]
  rw [List.map_cons, List.map_nil, List.map_cons, List.map_nil, hr]
  rfl

theorem qcut4_single : qcut4 (natsToQ [0]) = .error .duplicateBreaks := by decide

theorem generate_data_zero (c : ℚ) {seed : ℤ} (hs : 0 ≤ seed) :
    generate_data c 0 seed = .ok ⟨[], [], [], []⟩ := by
  rw [generate_data, if_neg (by omega), if_neg (by omega)]
  rfl

theorem generate_data_one (c : ℚ) {seed : ℤ} (hs : 0 ≤ seed) :
    generate_data c 1 seed = .error .duplicateBreaks := by
  rw [generate_data_nonneg c (by omega) hs]
  rw [show (1 : ℤ).toNat = 1 from rfl]
  rw [show normalDraws seed 0 1 = [normalSample seed 0] from rfl]
  rw [generate_from]
  rw [percentiles_singleton]
  rw [qcut4_single]

/-- Label counts of a generated quartile column equal the label counts on the
canonical percentile column (binning is by value, and the percentile column is a
permutation of the canonical one). -/
theorem count_labels_eq_canon {xs : List ℚ} {n : ℕ} (hlen : xs.length = n)
    {out : List Quartile} (hq : qcut4 (natsToQ (percentiles xs)) = .ok out) (q : Quartile) :
    out.count q = ((canQ n).map (labelOf (canQ n))).count q := by
  have hperm : (natsToQ (percentiles xs)).Perm (canQ n) := percentiles_natsToQ_perm xs hlen
  have hshape := qcut4_ok_shape hq
  subst hshape
  have hlabel : labelOf (natsToQ (percentiles xs)) = labelOf (canQ n) :=
    labelOf_congr (by rw [sortAsc_eq_of_perm hperm, sortAsc_canQ])
  rw [hlabel]
  exact (hperm.map (labelOf (canQ n))).count_eq q

theorem count_map_eq_count {α β : Type} [DecidableEq α] [DecidableEq β] (F : α → β)
    (hinj : ∀ x y, F x = F y → x = y) (l : List α) (a : α) :
    (l.map F).count (F a) = l.count a := by
  induction l with
  | nil => rfl
  | cons x xs ih =>
      rw [List.map_cons, List.count_cons, List.count_cons, ih]
      congr 1
      by_cases hx : x = a
      · subst hx
        simp
      · rw [if_neg (by simp only [beq_iff_eq]; exact fun hFx => hx (hinj _ _ hFx)),
            if_neg (by simp only [beq_iff_eq]; exact hx)]

theorem countP_range_le (n m : ℕ) :
    (List.range n).countP (fun k => decide (k ≤ m)) = min n (m + 1) := by
  induction n with
  | zero => simp
  | succ n ih =>
      rw [List.range_succ, List.countP_append, ih, List.countP_cons, List.countP_nil]
      by_cases h : n ≤ m <;> simp [h] <;> omega

theorem countP_range_between (n a b : ℕ) :
    (List.range n).countP (fun k => decide (a < k ∧ k ≤ b)) =
      min n (b + 1) - min n (a + 1) := by
  induction n with
  | zero => simp
  | succ n ih =>
      rw [List.range_succ, List.countP_append, ih, List.countP_cons, List.countP_nil]
      by_cases h1 : a < n <;> by_cases h2 : n ≤ b <;> simp [h1, h2] <;> omega

theorem countP_range_gt (n a : ℕ) :
    (List.range n).countP (fun k => decide (a < k)) = n - min n (a + 1) := by
  induction n with
  | zero => simp
  | succ n ih =>
      rw [List.range_succ, List.countP_append, ih, List.countP_cons, List.countP_nil]
      by_cases h : a < n <;> simp [h] <;> omega

/-- Strict upper interpolation bound: when the two neighbouring sorted values are
distinct, the interpolated quantile stays strictly below the upper one (the
fractional part of the position is < 1). -/
theorem quantileLinear_lt_general (s : List ℚ) (p : ℚ)
    (hx : s.getD ⌊p * ((s.length : ℚ) - 1)⌋₊ 0 <
      s.getD (⌊p * ((s.length : ℚ) - 1)⌋₊ + 1) (s.getD ⌊p * ((s.length : ℚ) - 1)⌋₊ 0)) :
    quantileLinear s p <
      s.getD (⌊p * ((s.length : ℚ) - 1)⌋₊ + 1) (s.getD ⌊p * ((s.length : ℚ) - 1)⌋₊ 0) := by
  simp only [quantileLinear, qadd_eq, qmul_eq, qsub_eq]
  have hfr := Nat.lt_floor_add_one (p * ((s.length : ℚ) - 1))
  have h2 := mul_lt_mul_of_pos_right
    (show p * ((s.length : ℚ) - 1) - (⌊p * ((s.length : ℚ) - 1)⌋₊ : ℚ) < 1 by linarith)
    (show (0 : ℚ) < s.getD (⌊p * ((s.length : ℚ) - 1)⌋₊ + 1)
        (s.getD ⌊p * ((s.length : ℚ) - 1)⌋₊ 0) - s.getD ⌊p * ((s.length : ℚ) - 1)⌋₊ 0 by
      linarith)
  rw [one_mul] at h2
  linarith

/-- When the two canonical values around a breakpoint's interpolation interval
are distinct, the breakpoint lies strictly below the upper one. -/
theorem canQ_break_lt_strict {n : ℕ} (hn : 2 ≤ n) (i : ℕ) (hi3 : i ≤ 3)
    (hstrict : (i * (n - 1) / 4) * 100 / n < (i * (n - 1) / 4 + 1) * 100 / n) :
    quantileLinear (canQ n) (Rat.divInt (i : ℤ) 4) <
      (((i * (n - 1) / 4 + 1) * 100 / n : ℕ) : ℚ) := by
  have hq3 : i * (n - 1) / 4 ≤ 3 * (n - 1) / 4 :=
    Nat.div_le_div_right (Nat.mul_le_mul_right _ hi3)
  have hqn : i * (n - 1) / 4 + 1 < n := by omega
  have hfloor := canQ_break_floor hn i
  have hx0 : (canQ n).getD (i * (n - 1) / 4) 0 = (((i * (n - 1) / 4) * 100 / n : ℕ) : ℚ) :=
    canQ_getD (by omega) 0
  have hx1 : (canQ n).getD (i * (n - 1) / 4 + 1) ((canQ n).getD (i * (n - 1) / 4) 0) =
      (((i * (n - 1) / 4 + 1) * 100 / n : ℕ) : ℚ) :=
    canQ_getD hqn _
  rw [hx0] at hx1
  have hstrictQ : (((i * (n - 1) / 4) * 100 / n : ℕ) : ℚ) <
      (((i * (n - 1) / 4 + 1) * 100 / n : ℕ) : ℚ) := by
    exact_mod_cast hstrict
  have hx : (canQ n).getD ⌊Rat.divInt (i : ℤ) 4 * (((canQ n).length : ℚ) - 1)⌋₊ 0 <
      (canQ n).getD (⌊Rat.divInt (i : ℤ) 4 * (((canQ n).length : ℚ) - 1)⌋₊ + 1)
        ((canQ n).getD ⌊Rat.divInt (i : ℤ) 4 * (((canQ n).length : ℚ) - 1)⌋₊ 0) := by
    rw [hfloor, hx0, hx1]
    exact hstrictQ
  have hgen := quantileLinear_lt_general (canQ n) (Rat.divInt (i : ℤ) 4) hx
  rw [hfloor, hx0, hx1] at hgen
  exact hgen

/-- For every `n ≥ 2` (ties allowed), a canonical value sits at or below a
breakpoint exactly when it sits at or below the canonical value at the
breakpoint's interpolation index: the breakpoint interpolates within one run of
equal values or within one gap between distinct values, and bins are
right-closed. -/
theorem value_le_break_iff {n : ℕ} (hn : 2 ≤ n) (i : ℕ)
    (hi1 : 1 ≤ i) (hi3 : i ≤ 3) (k : ℕ) :
    (((k * 100 / n : ℕ) : ℚ) ≤ quantileLinear (canQ n) (Rat.divInt (i : ℤ) 4)) ↔
      k * 100 / n ≤ (i * (n - 1) / 4) * 100 / n := by
  constructor
  · intro hle
    by_contra hgt
    push_neg at hgt
    have hm : i * (n - 1) / 4 < k := by
      by_contra hk'
      push_neg at hk'
      exact absurd (Nat.div_le_div_right (Nat.mul_le_mul_right 100 hk')) (not_le.mpr hgt)
    have hv1 : (i * (n - 1) / 4 + 1) * 100 / n ≤ k * 100 / n :=
      Nat.div_le_div_right (Nat.mul_le_mul_right _ (by omega))
    by_cases hst : (i * (n - 1) / 4) * 100 / n < (i * (n - 1) / 4 + 1) * 100 / n
    · have hub := canQ_break_lt_strict hn i hi3 hst
      have hcast : ((((i * (n - 1) / 4 + 1) * 100 / n : ℕ)) : ℚ) ≤
          (((k * 100 / n : ℕ)) : ℚ) := by
        exact_mod_cast hv1
      linarith
    · push_neg at hst
      have hub := (canQ_break_bounds hn i hi1 hi3).2
      have heq : ((((i * (n - 1) / 4 + 1) * 100 / n : ℕ)) : ℚ) ≤
          ((((i * (n - 1) / 4) * 100 / n : ℕ)) : ℚ) := by
        exact_mod_cast hst
      have hkgt : ((((i * (n - 1) / 4) * 100 / n : ℕ)) : ℚ) < (((k * 100 / n : ℕ)) : ℚ) := by
        exact_mod_cast hgt
      linarith
  · intro hle
    have hlb := (canQ_break_bounds hn i hi1 hi3).1
    have hcast : (((k * 100 / n : ℕ)) : ℚ) ≤ ((((i * (n - 1) / 4) * 100 / n : ℕ)) : ℚ) := by
      exact_mod_cast hle
    linarith

/-- The canonical value of rank `k` is at most `v` exactly when `k` is at most
`((v+1)*n - 1) / 100` (counting index of the last value `≤ v`). -/
theorem val_le_iff_le_bound (k v : ℕ) {n : ℕ} (hn : 0 < n) :
    (k * 100 / n ≤ v) ↔ (k ≤ ((v + 1) * n - 1) / 100) := by
  have ht : 1 ≤ (v + 1) * n := Nat.mul_pos (by omega) hn
  rw [Nat.le_div_iff_mul_le (by norm_num : 0 < 100)]
  constructor
  · intro h
    have h2 : k * 100 < (v + 1) * n := (Nat.div_lt_iff_lt_mul hn).mp (Nat.lt_succ_of_le h)
    omega
  · intro h
    have h2 : k * 100 < (v + 1) * n := by omega
    have h3 : k * 100 / n < v + 1 := (Nat.div_lt_iff_lt_mul hn).mpr h2
    omega

theorem binOf_three (b1 b2 b3 v : ℚ) :
    binOf [b1, b2, b3] v =
      (if b1 < v then 1 else 0) + ((if b2 < v then 1 else 0) + (if b3 < v then 1 else 0)) := by
  rw [binOf, List.filter_cons, List.filter_cons, List.filter_cons, List.filter_nil]
  by_cases h1 : b1 < v <;> by_cases h2 : b2 < v <;> by_cases h3 : b3 < v <;>
    simp [h1, h2, h3]

/-- The quartile label of a canonical value is determined by comparing the value
with the canonical values at the three interpolation indices (valid for every
`n ≥ 2`, ties included). -/
theorem label_canQ_eq {n : ℕ} (hn : 2 ≤ n) (k : ℕ) :
    labelOf (canQ n) (((k * 100 / n : ℕ)) : ℚ) =
      (if k * 100 / n ≤ ((n - 1) / 4) * 100 / n then Quartile.Bottom
       else if k * 100 / n ≤ (2 * (n - 1) / 4) * 100 / n then Quartile.Second
       else if k * 100 / n ≤ (3 * (n - 1) / 4) * 100 / n then Quartile.Third
       else Quartile.Top) := by
  have hb := breaks_lt hn
  have h1 := value_le_break_iff hn 1 (by norm_num) (by norm_num) k
  have h2 := value_le_break_iff hn 2 (by norm_num) (by norm_num) k
  have h3 := value_le_break_iff hn 3 (by norm_num) (by norm_num) k
  rw [one_mul] at h1
  rw [show ((1 : ℕ) : ℤ) = (1 : ℤ) by norm_num] at h1
  rw [show ((2 : ℕ) : ℤ) = (2 : ℤ) by norm_num] at h2
  rw [show ((3 : ℕ) : ℤ) = (3 : ℤ) by norm_num] at h3
  simp only [labelOf, qbreaks, sortAsc_canQ, binOf_three]
  by_cases c1 : k * 100 / n ≤ ((n - 1) / 4) * 100 / n
  · have v1 : ¬ quantileLinear (canQ n) (Rat.divInt 1 4) < ((k * 100 / n : ℕ) : ℚ) :=
      not_lt.mpr (h1.mpr c1)
    have v2 : ¬ quantileLinear (canQ n) (Rat.divInt 2 4) < ((k * 100 / n : ℕ) : ℚ) :=
      not_lt.mpr (le_trans (h1.mpr c1) (le_of_lt hb.1))
    have v3 : ¬ quantileLinear (canQ n) (Rat.divInt 3 4) < ((k * 100 / n : ℕ) : ℚ) :=
      not_lt.mpr (le_trans (h1.mpr c1) (le_of_lt (lt_trans hb.1 hb.2)))
    rw [if_pos c1, if_neg v1, if_neg v2, if_neg v3]
    rfl
  · by_cases c2 : k * 100 / n ≤ (2 * (n - 1) / 4) * 100 / n
    · have u1 : quantileLinear (canQ n) (Rat.divInt 1 4) < ((k * 100 / n : ℕ) : ℚ) :=
        not_le.mp (fun hv => c1 (h1.mp hv))
      have v2 : ¬ quantileLinear (canQ n) (Rat.divInt 2 4) < ((k * 100 / n : ℕ) : ℚ) :=
        not_lt.mpr (h2.mpr c2)
      have v3 : ¬ quantileLinear (canQ n) (Rat.divInt 3 4) < ((k * 100 / n : ℕ) : ℚ) :=
        not_lt.mpr (le_trans (h2.mpr c2) (le_of_lt hb.2))
      rw [if_neg c1, if_pos c2, if_pos u1, if_neg v2, if_neg v3]
      rfl
    · by_cases c3 : k * 100 / n ≤ (3 * (n - 1) / 4) * 100 / n
      · have u1 : quantileLinear (canQ n) (Rat.divInt 1 4) < ((k * 100 / n : ℕ) : ℚ) :=
          not_le.mp (fun hv => c1 (h1.mp hv))
        have u2 : quantileLinear (canQ n) (Rat.divInt 2 4) < ((k * 100 / n : ℕ) : ℚ) :=
          not_le.mp (fun hv => c2 (h2.mp hv))
        have v3 : ¬ quantileLinear (canQ n) (Rat.divInt 3 4) < ((k * 100 / n : ℕ) : ℚ) :=
          not_lt.mpr (h3.mpr c3)
        rw [if_neg c1, if_neg c2, if_pos c3, if_pos u1, if_pos u2, if_neg v3]
        rfl
      · have u3 : quantileLinear (canQ n) (Rat.divInt 3 4) < ((k * 100 / n : ℕ) : ℚ) :=
          not_le.mp (fun hv => c3 (h3.mp hv))
        have u2 : quantileLinear (canQ n) (Rat.divInt 2 4) < ((k * 100 / n : ℕ) : ℚ) :=
          lt_trans hb.2 u3
        have u1 : quantileLinear (canQ n) (Rat.divInt 1 4) < ((k * 100 / n : ℕ) : ℚ) :=
          lt_trans hb.1 u2
        rw [if_neg c1, if_neg c2, if_neg c3, if_pos u1, if_pos u2, if_pos u3]
        rfl

theorem count_map_canQ (n : ℕ) (F : ℚ → Quartile) (q : Quartile) :
    ((canQ n).map F).count q =
      (List.range n).countP (fun k => F (((k * 100 / n : ℕ)) : ℚ) == q) := by
  rw [List.count_eq_countP, canQ, natsToQ, canonPercentiles, List.map_map, List.map_map,
    List.countP_map]
  rfl

/-- Closed-form quartile-size arithmetic for every `n ≥ 2`: with
`tᵢ = ((vᵢ+1)*n - 1)/100` and `vᵢ = (⌊i*(n-1)/4⌋*100)/n` the canonical value at
the i-th interpolation index, the four cumulative-count differences all equal
`⌊n/4⌋` or `⌈n/4⌉`.  Settled by decision for `n ≤ 149` and by `vᵢ = 25i - 1`
plus integer arithmetic for `n ≥ 150`. -/
theorem sizes_arith {n : ℕ} (hn : 2 ≤ n) :
    (min n (((((n - 1) / 4) * 100 / n + 1) * n - 1) / 100 + 1) = n / 4 ∨
      min n (((((n - 1) / 4) * 100 / n + 1) * n - 1) / 100 + 1) = (n + 3) / 4) ∧
    (min n ((((2 * (n - 1) / 4) * 100 / n + 1) * n - 1) / 100 + 1) -
        min n (((((n - 1) / 4) * 100 / n + 1) * n - 1) / 100 + 1) = n / 4 ∨
      min n ((((2 * (n - 1) / 4) * 100 / n + 1) * n - 1) / 100 + 1) -
        min n (((((n - 1) / 4) * 100 / n + 1) * n - 1) / 100 + 1) = (n + 3) / 4) ∧
    (min n ((((3 * (n - 1) / 4) * 100 / n + 1) * n - 1) / 100 + 1) -
        min n ((((2 * (n - 1) / 4) * 100 / n + 1) * n - 1) / 100 + 1) = n / 4 ∨
      min n ((((3 * (n - 1) / 4) * 100 / n + 1) * n - 1) / 100 + 1) -
        min n ((((2 * (n - 1) / 4) * 100 / n + 1) * n - 1) / 100 + 1) = (n + 3) / 4) ∧
    (n - min n ((((3 * (n - 1) / 4) * 100 / n + 1) * n - 1) / 100 + 1) = n / 4 ∨
      n - min n ((((3 * (n - 1) / 4) * 100 / n + 1) * n - 1) / 100 + 1) = (n + 3) / 4) := by
  by_cases hsmall : n ≤ 149
  · interval_cases n <;> decide
  · push_neg at hsmall
    have hv1 : ((n - 1) / 4) * 100 / n = 24 :=
      Nat.div_eq_of_lt_le (by omega) (by omega)
    have hv2 : (2 * (n - 1) / 4) * 100 / n = 49 :=
      Nat.div_eq_of_lt_le (by omega) (by omega)
    have hv3 : (3 * (n - 1) / 4) * 100 / n = 74 :=
      Nat.div_eq_of_lt_le (by omega) (by omega)
    rw [hv1, hv2, hv3]
    obtain ⟨s, r, hr, rfl⟩ : ∃ s r, r < 4 ∧ n = 4 * s + r :=
      ⟨n / 4, n % 4, by omega, by omega⟩
    interval_cases r <;> refine ⟨by omega, by omega, by omega, by omega⟩

/-- Quartile-size bounds on the canonical column for every participant count
`n ≥ 2`, ties included: binning is by value with right-closed bins, so the
count of values at or below breakpoint i is the count of ranks at or below
`tᵢ`, a closed-form function of `n`. -/
theorem sizesOK_of_range {n : ℕ} (hn : 2 ≤ n) (q : Quartile) :
    ((canQ n).map (labelOf (canQ n))).count q = n / 4 ∨
    ((canQ n).map (labelOf (canQ n))).count q = (n + 3) / 4 := by
  have h0n : 0 < n := by omega
  rw [count_map_canQ n (labelOf (canQ n)) q]
  have hcongr : (List.range n).countP
        (fun k => labelOf (canQ n) (((k * 100 / n : ℕ)) : ℚ) == q) =
      (List.range n).countP (fun k =>
        (if k ≤ ((((n - 1) / 4) * 100 / n + 1) * n - 1) / 100 then Quartile.Bottom
         else if k ≤ (((2 * (n - 1) / 4) * 100 / n + 1) * n - 1) / 100 then Quartile.Second
         else if k ≤ (((3 * (n - 1) / 4) * 100 / n + 1) * n - 1) / 100 then Quartile.Third
         else Quartile.Top) == q) :=
    List.countP_congr (by
      intro k _
      rw [label_canQ_eq hn k]
      simp only [val_le_iff_le_bound k (((n - 1) / 4) * 100 / n) h0n,
        val_le_iff_le_bound k ((2 * (n - 1) / 4) * 100 / n) h0n,
        val_le_iff_le_bound k ((3 * (n - 1) / 4) * 100 / n) h0n])
  rw [hcongr]
  have harith := sizes_arith hn
  have hv12 : ((n - 1) / 4) * 100 / n ≤ (2 * (n - 1) / 4) * 100 / n :=
    Nat.div_le_div_right (Nat.mul_le_mul_right _ (Nat.div_le_div_right (by omega)))
  have hv23 : (2 * (n - 1) / 4) * 100 / n ≤ (3 * (n - 1) / 4) * 100 / n :=
    Nat.div_le_div_right (Nat.mul_le_mul_right _ (Nat.div_le_div_right (by omega)))
  have ht12 : ((((n - 1) / 4) * 100 / n + 1) * n - 1) / 100 ≤
      (((2 * (n - 1) / 4) * 100 / n + 1) * n - 1) / 100 := by
    refine Nat.div_le_div_right ?_
    have hm := Nat.mul_le_mul_right n (Nat.add_le_add_right hv12 1)
    omega
  have ht23 : (((2 * (n - 1) / 4) * 100 / n + 1) * n - 1) / 100 ≤
      (((3 * (n - 1) / 4) * 100 / n + 1) * n - 1) / 100 := by
    refine Nat.div_le_div_right ?_
    have hm := Nat.mul_le_mul_right n (Nat.add_le_add_right hv23 1)
    omega
  cases q with
  | Bottom =>
      have hc : (List.range n).countP (fun k =>
          (if k ≤ ((((n - 1) / 4) * 100 / n + 1) * n - 1) / 100 then Quartile.Bottom
           else if k ≤ (((2 * (n - 1) / 4) * 100 / n + 1) * n - 1) / 100 then Quartile.Second
           else if k ≤ (((3 * (n - 1) / 4) * 100 / n + 1) * n - 1) / 100 then Quartile.Third
           else Quartile.Top) == Quartile.Bottom) =
          (List.range n).countP (fun k =>
            decide (k ≤ ((((n - 1) / 4) * 100 / n + 1) * n - 1) / 100)) :=
        List.countP_congr (by
          intro k _
          split_ifs with c1 c2 c3 <;> simp <;> omega)
      rw [hc, countP_range_le]
      exact harith.1
  | Second =>
      have hc : (List.range n).countP (fun k =>
          (if k ≤ ((((n - 1) / 4) * 100 / n + 1) * n - 1) / 100 then Quartile.Bottom
           else if k ≤ (((2 * (n - 1) / 4) * 100 / n + 1) * n - 1) / 100 then Quartile.Second
           else if k ≤ (((3 * (n - 1) / 4) * 100 / n + 1) * n - 1) / 100 then Quartile.Third
           else Quartile.Top) == Quartile.Second) =
          (List.range n).countP (fun k =>
            decide (((((n - 1) / 4) * 100 / n + 1) * n - 1) / 100 < k ∧
              k ≤ (((2 * (n - 1) / 4) * 100 / n + 1) * n - 1) / 100)) :=
        List.countP_congr (by
          intro k _
          split_ifs with c1 c2 c3 <;> simp <;> omega)
      rw [hc, countP_range_between]
      exact harith.2.1
  | Third =>
      have hc : (List.range n).countP (fun k =>
          (if k ≤ ((((n - 1) / 4) * 100 / n + 1) * n - 1) / 100 then Quartile.Bottom
           else if k ≤ (((2 * (n - 1) / 4) * 100 / n + 1) * n - 1) / 100 then Quartile.Second
           else if k ≤ (((3 * (n - 1) / 4) * 100 / n + 1) * n - 1) / 100 then Quartile.Third
           else Quartile.Top) == Quartile.Third) =
          (List.range n).countP (fun k =>
            decide ((((2 * (n - 1) / 4) * 100 / n + 1) * n - 1) / 100 < k ∧
              k ≤ (((3 * (n - 1) / 4) * 100 / n + 1) * n - 1) / 100)) :=
        List.countP_congr (by
          intro k _
          split_ifs with c1 c2 c3 <;> simp <;> omega)
      rw [hc, countP_range_between]
      exact harith.2.2.1
  | Top =>
      have hc : (List.range n).countP (fun k =>
          (if k ≤ ((((n - 1) / 4) * 100 / n + 1) * n - 1) / 100 then Quartile.Bottom
           else if k ≤ (((2 * (n - 1) / 4) * 100 / n + 1) * n - 1) / 100 then Quartile.Second
           else if k ≤ (((3 * (n - 1) / 4) * 100 / n + 1) * n - 1) / 100 then Quartile.Third
           else Quartile.Top) == Quartile.Top) =
          (List.range n).countP (fun k =>
            decide ((((3 * (n - 1) / 4) * 100 / n + 1) * n - 1) / 100 < k)) :=
        List.countP_congr (by
          intro k _
          split_ifs with c1 c2 c3 <;> simp <;> omega)
      rw [hc, countP_range_gt]
      exact harith.2.2.2

/-- C1, counterexample to the claim as stated: at `participantCount = 1` the
generator returns no table at all — the percentile column is the single value 0,
the three quantile breakpoints of `qcut(4)` coincide, and polars raises a
duplicate-breakpoint error (`allow_duplicates=False`). -/
theorem c1_counterexample :
    generate_data (Rat.divInt 1 2) 1 42 = .error .duplicateBreaks :=
  generate_data_one _ (by decide)

/-- C1 (amended to participantCount ≥ 2 and non-negative randomSeed; the call
fails at count 1, and a negative seed fails in `np.random.default_rng` before
any rows exist): the table has exactly n rows, each percentile column is as a
multiset exactly {⌊k*100/n⌋ : k = 0..n-1} (the canonical column), every
percentile is an integer below 100, percentile 0 is attained and the largest
attained percentile is ⌊(n-1)*100/n⌋ < 100. -/
theorem c1_table_shape (c : ℚ) (seed : ℤ) (hs : 0 ≤ seed) (n : ℕ) (hn : 2 ≤ n) :
    ∃ fr : Frame, generate_data c (n : ℤ) seed = .ok fr ∧
      fr.test_score_percentile.length = n ∧
      fr.perceived_ability_percentile.length = n ∧
      fr.test_score_percentile.Perm (canonPercentiles n) ∧
      fr.perceived_ability_percentile.Perm (canonPercentiles n) ∧
      (∀ p ∈ fr.test_score_percentile, p < 100) ∧
      (∀ p ∈ fr.perceived_ability_percentile, p < 100) ∧
      0 ∈ fr.test_score_percentile ∧ (n - 1) * 100 / n ∈ fr.test_score_percentile := by
  rw [generate_data_nonneg c (Int.natCast_nonneg n) hs, Int.toNat_natCast]
  have hlt : (normalDraws seed 0 n).length = n := normalDraws_length seed 0 n
  have hle : (normalDraws seed n n).length = (normalDraws seed 0 n).length :=
    (normalDraws_length seed n n).trans hlt.symm
  have hpa : (perceivedAbility c (normalDraws seed 0 n) (normalDraws seed n n)).length = n := by
    rw [perceivedAbility_length, hle, hlt]
    exact min_self n
  have hpermT : (percentiles (normalDraws seed 0 n)).Perm (canonPercentiles n) := by
    have := percentiles_perm (normalDraws seed 0 n)
    rwa [hlt] at this
  have hpermP :
      (percentiles (perceivedAbility c (normalDraws seed 0 n) (normalDraws seed n n))).Perm
        (canonPercentiles n) := by
    have := percentiles_perm (perceivedAbility c (normalDraws seed 0 n) (normalDraws seed n n))
    rwa [hpa] at this
  have hbound : ∀ p ∈ canonPercentiles n, p < 100 := by
    intro p hp
    obtain ⟨k, hk, rfl⟩ := List.mem_map.mp hp
    rw [List.mem_range] at hk
    rw [Nat.div_lt_iff_lt_mul (by omega)]
    omega
  refine ⟨_, generate_from_ok hn hlt hle, ?_, ?_, hpermT, hpermP, ?_, ?_, ?_, ?_⟩
  · exact (percentiles_length _).trans hlt
  · exact (percentiles_length _).trans hpa
  · exact fun p hp => hbound p (hpermT.mem_iff.mp hp)
  · exact fun p hp => hbound p (hpermP.mem_iff.mp hp)
  · exact hpermT.mem_iff.mpr (List.mem_map.mpr ⟨0, List.mem_range.mpr (by omega), by simp⟩)
  · exact hpermT.mem_iff.mpr (List.mem_map.mpr ⟨n - 1, List.mem_range.mpr (by omega), rfl⟩)

/-- Witness for `c1_table_shape` at `c = 1/2`, `seed = 42`, `n = 4`. -/
theorem c1_table_shape_witness :
    (0 : ℤ) ≤ 42 ∧ 2 ≤ 4 ∧
    (∃ fr : Frame, generate_data (Rat.divInt 1 2) ((4 : ℕ) : ℤ) 42 = .ok fr ∧
      fr.test_score_percentile.length = 4 ∧
      fr.perceived_ability_percentile.length = 4 ∧
      fr.test_score_percentile.Perm (canonPercentiles 4) ∧
      fr.perceived_ability_percentile.Perm (canonPercentiles 4) ∧
      (∀ p ∈ fr.test_score_percentile, p < 100) ∧
      (∀ p ∈ fr.perceived_ability_percentile, p < 100) ∧
      0 ∈ fr.test_score_percentile ∧ (4 - 1) * 100 / 4 ∈ fr.test_score_percentile) :=
  ⟨by decide, by decide, c1_table_shape (Rat.divInt 1 2) 42 (by decide) 4 (by decide)⟩

/-- C2, counterexample to the claim as stated: at `participantCount = 1` no
quartile labels are produced at all — `qcut(4)` fails on the single-value
percentile column with a duplicate-breakpoint error. -/
theorem c2_counterexample :
    generate_data (Rat.divInt 1 2) 1 7 = .error .duplicateBreaks :=
  generate_data_one _ (by decide)

/-- C2 (amended to participantCount ≥ 2; the call produces no labels at 1): in
every successful output, every quartile label count lies in {⌊n/4⌋, ⌈n/4⌉} for
both quartile columns, and labels are monotone in the percentile along the
label order Bottom < 2nd < 3rd < Top (so the groups are contiguous
equal-frequency buckets in ascending rank order). -/
theorem c2_quartile_sizes (c : ℚ) (seed : ℤ) (n : ℕ) (hn : 2 ≤ n)
    {fr : Frame} (h : generate_data c (n : ℤ) seed = .ok fr) :
    (∀ q : Quartile, fr.test_score_quartile.count q = n / 4 ∨
        fr.test_score_quartile.count q = (n + 3) / 4) ∧
    (∀ q : Quartile, fr.perceived_ability_quartile.count q = n / 4 ∨
        fr.perceived_ability_quartile.count q = (n + 3) / 4) ∧
    (∀ i j : ℕ, i < n → j < n →
        fr.test_score_percentile.getD j 0 ≤ fr.test_score_percentile.getD i 0 →
        qidx (fr.test_score_quartile.getD j .Bottom) ≤
          qidx (fr.test_score_quartile.getD i .Bottom)) ∧
    (∀ i j : ℕ, i < n → j < n →
        fr.perceived_ability_percentile.getD j 0 ≤ fr.perceived_ability_percentile.getD i 0 →
        qidx (fr.perceived_ability_quartile.getD j .Bottom) ≤
          qidx (fr.perceived_ability_quartile.getD i .Bottom)) := by
  rcases lt_or_ge seed 0 with hs | hs
  · rw [generate_data_badseed c _ hs] at h
    cases h
  rw [generate_data_nonneg c (Int.natCast_nonneg n) hs, Int.toNat_natCast] at h
  obtain ⟨h1, h2, h3, h4⟩ := generate_from_fields h
  have hlt : (normalDraws seed 0 n).length = n := normalDraws_length seed 0 n
  have hpa : (perceivedAbility c (normalDraws seed 0 n) (normalDraws seed n n)).length = n := by
    rw [perceivedAbility_length, normalDraws_length, normalDraws_length]
    exact min_self n
  refine ⟨?_, ?_, ?_, ?_⟩
  · intro q
    rw [count_labels_eq_canon hlt h3 q]
    exact sizesOK_of_range hn q
  · intro q
    rw [count_labels_eq_canon hpa h4 q]
    exact sizesOK_of_range hn q
  · intro i j hi hj hle
    rw [h1] at hle
    refine labels_mono h3 ?_ ?_ hle
    · rw [percentiles_length, hlt]; exact hi
    · rw [percentiles_length, hlt]; exact hj
  · intro i j hi hj hle
    rw [h2] at hle
    refine labels_mono h4 ?_ ?_ hle
    · rw [percentiles_length, hpa]; exact hi
    · rw [percentiles_length, hpa]; exact hj

/-- Witness for `c2_quartile_sizes` at `c = 1/2`, `seed = 42`, `n = 4`. -/
theorem c2_quartile_sizes_witness :
    (2 ≤ 4 ∧ generate_data (Rat.divInt 1 2) ((4 : ℕ) : ℤ) 42 = .ok frameW24) ∧
    ((∀ q : Quartile, frameW24.test_score_quartile.count q = 4 / 4 ∨
        frameW24.test_score_quartile.count q = (4 + 3) / 4) ∧
     (∀ q : Quartile, frameW24.perceived_ability_quartile.count q = 4 / 4 ∨
        frameW24.perceived_ability_quartile.count q = (4 + 3) / 4) ∧
     (∀ i j : ℕ, i < 4 → j < 4 →
        frameW24.test_score_percentile.getD j 0 ≤ frameW24.test_score_percentile.getD i 0 →
        qidx (frameW24.test_score_quartile.getD j .Bottom) ≤
          qidx (frameW24.test_score_quartile.getD i .Bottom)) ∧
     (∀ i j : ℕ, i < 4 → j < 4 →
        frameW24.perceived_ability_percentile.getD j 0 ≤
          frameW24.perceived_ability_percentile.getD i 0 →
        qidx (frameW24.perceived_ability_quartile.getD j .Bottom) ≤
          qidx (frameW24.perceived_ability_quartile.getD i .Bottom))) :=
  ⟨⟨by decide, by decide⟩,
   c2_quartile_sizes (Rat.divInt 1 2) 42 4 (by decide) (by decide)⟩

/-- C3, counterexample to the claim as stated: `participantCount = 0` does not
fail at all — the empty sample vector flows through (numpy floor division and
polars `qcut` act elementwise on empty columns) and an empty 0-row table is
returned, with no `InvalidArgument` signalled. -/
theorem c3_counterexample :
    generate_data (Rat.divInt 1 2) 0 7 = .ok ⟨[], [], [], []⟩ :=
  generate_data_zero _ (by decide)

/-- C3 (amended): there is no `InvalidArgument` validation in the code.  With a
non-negative seed, a negative `participantCount` fails with the sampling
library error (numpy rejects a negative size) before any rows are produced,
while `participantCount = 0` succeeds and returns an empty table.  With a
negative seed the call fails even earlier, inside `np.random.default_rng`,
whatever the count. -/
theorem c3_invalid_counts (c : ℚ) (seed : ℤ) :
    (0 ≤ seed →
      (∀ n : ℤ, n < 0 → generate_data c n seed = .error .negativeSize) ∧
      generate_data c 0 seed = .ok ⟨[], [], [], []⟩) ∧
    (seed < 0 → ∀ n : ℤ, generate_data c n seed = .error .negativeSeed) :=
  ⟨fun hs => ⟨fun _ hn => generate_data_neg c hn hs, generate_data_zero c hs⟩,
   fun hs n => generate_data_badseed c n hs⟩

/-- Witness for `c3_invalid_counts` at `c = 1/2`, seeds 7 and -1, counts -5, 0
and 4. -/
theorem c3_invalid_counts_witness :
    generate_data (Rat.divInt 1 2) (-5) 7 = .error .negativeSize ∧
    generate_data (Rat.divInt 1 2) 0 7 = .ok ⟨[], [], [], []⟩ ∧
    generate_data (Rat.divInt 1 2) 4 (-1) = .error .negativeSeed :=
  ⟨((c3_invalid_counts (Rat.divInt 1 2) 7).1 (by decide)).1 (-5) (by decide),
   ((c3_invalid_counts (Rat.divInt 1 2) 7).1 (by decide)).2,
   (c3_invalid_counts (Rat.divInt 1 2) (-1)).2 (by decide) 4⟩

/-- C4: a call of the generator is a pure function of
(correlationCoefficient, participantCount, randomSeed): two calls with the same
arguments from arbitrary process states return the same table, and the process
state (the global generator `np.random.default_rng` avoids) passes through a
call unchanged, so results do not depend on call order or prior invocations. -/
theorem c4_determinism (w₁ w₂ : ProcessState) (c : ℚ) (n : ℤ) (seed : ℤ) :
    (generate_data_call w₁ c n seed).1 = (generate_data_call w₂ c n seed).1 ∧
    (generate_data_call w₁ c n seed).2 = w₁ :=
  ⟨rfl, rfl⟩

/-- C5: in every successful generator output, a participant whose raw test-score
sample is strictly larger than that of another participant receives a greater or
equal `test_score_percentile`, and likewise for the raw perceived-ability values
and `perceived_ability_percentile`. -/
theorem c5_rank_monotonicity (c : ℚ) (test noise : List ℚ) {fr : Frame}
    (h : generate_from c test noise = .ok fr) :
    (∀ i j : ℕ, i < test.length → j < test.length →
        test.getD j 0 < test.getD i 0 →
        fr.test_score_percentile.getD j 0 ≤ fr.test_score_percentile.getD i 0) ∧
    (∀ i j : ℕ, i < (perceivedAbility c test noise).length →
        j < (perceivedAbility c test noise).length →
        (perceivedAbility c test noise).getD j 0 < (perceivedAbility c test noise).getD i 0 →
        fr.perceived_ability_percentile.getD j 0 ≤
          fr.perceived_ability_percentile.getD i 0) := by
  obtain ⟨h1, h2, -, -⟩ := generate_from_fields h
  rw [h1, h2]
  exact ⟨fun i j hi hj hv => percentiles_mono hi hj hv,
         fun i j hi hj hv => percentiles_mono hi hj hv⟩

/-- Witness for `c5_rank_monotonicity` on `generate_from 0 [2,1,3] [0,0,0]`,
participants 2 (raw 3) and 1 (raw 1). -/
theorem c5_rank_monotonicity_witness :
    ([2, 1, 3] : List ℚ).getD 1 0 < ([2, 1, 3] : List ℚ).getD 2 0 ∧
    frameW1.test_score_percentile.getD 1 0 ≤ frameW1.test_score_percentile.getD 2 0 :=
  ⟨by decide,
   (c5_rank_monotonicity 0 [2, 1, 3] [0, 0, 0] (by decide)).1 2 1
     (by decide) (by decide) (by decide)⟩

/-- C6: in every successful generator output, a participant with a strictly
higher `test_score_percentile` never has a strictly lower `test_score_quartile`
label under the order Bottom < 2nd < 3rd < Top, and likewise for the
perceived-ability columns. -/
theorem c6_quartile_consistency (c : ℚ) (test noise : List ℚ) {fr : Frame}
    (h : generate_from c test noise = .ok fr) :
    (∀ i j : ℕ, i < fr.test_score_percentile.length →
        j < fr.test_score_percentile.length →
        fr.test_score_percentile.getD j 0 < fr.test_score_percentile.getD i 0 →
        qidx (fr.test_score_quartile.getD j .Bottom) ≤
          qidx (fr.test_score_quartile.getD i .Bottom)) ∧
    (∀ i j : ℕ, i < fr.perceived_ability_percentile.length →
        j < fr.perceived_ability_percentile.length →
        fr.perceived_ability_percentile.getD j 0 < fr.perceived_ability_percentile.getD i 0 →
        qidx (fr.perceived_ability_quartile.getD j .Bottom) ≤
          qidx (fr.perceived_ability_quartile.getD i .Bottom)) := by
  obtain ⟨h1, h2, h3, h4⟩ := generate_from_fields h
  constructor
  · intro i j hi hj hv
    rw [h1] at hi hj hv
    exact labels_mono h3 hi hj (le_of_lt hv)
  · intro i j hi hj hv
    rw [h2] at hi hj hv
    exact labels_mono h4 hi hj (le_of_lt hv)

/-- Witness for `c6_quartile_consistency` on `generate_from 0 [2,1,3] [0,0,0]`,
participants 0 (percentile 33) and 1 (percentile 0). -/
theorem c6_quartile_consistency_witness :
    frameW1.test_score_percentile.getD 1 0 < frameW1.test_score_percentile.getD 0 0 ∧
    qidx (frameW1.test_score_quartile.getD 1 .Bottom) ≤
      qidx (frameW1.test_score_quartile.getD 0 .Bottom) :=
  ⟨by decide,
   (c6_quartile_consistency 0 [2, 1, 3] [0, 0, 0] (by decide)).1 0 1
     (by decide) (by decide) (by decide)⟩

/-- C7: with correlationCoefficient = 1 the noise term vanishes exactly
(`sqrt(1-1*1) = 0`), the two raw vectors coincide, and every successful output
has `perceived_ability_percentile` equal to `test_score_percentile` row for row
(and the quartile columns coincide as well). -/
theorem c7_perfect_correlation (n : ℤ) (seed : ℤ) {fr : Frame}
    (h : generate_data 1 n seed = .ok fr) :
    fr.perceived_ability_percentile = fr.test_score_percentile ∧
    fr.perceived_ability_quartile = fr.test_score_quartile := by
  rcases lt_or_ge seed 0 with hs | hs
  · rw [generate_data_badseed 1 n hs] at h
    cases h
  rcases lt_or_ge n 0 with hneg | hpos
  · rw [generate_data_neg 1 hneg hs] at h
    cases h
  · rw [generate_data_nonneg 1 hpos hs] at h
    have hone : perceivedAbility 1 (normalDraws seed 0 n.toNat)
        (normalDraws seed n.toNat n.toNat) = normalDraws seed 0 n.toNat :=
      perceivedAbility_one _ _
        (le_of_eq ((normalDraws_length _ _ _).trans (normalDraws_length _ _ _).symm))
    obtain ⟨h1, h2, h3, h4⟩ := generate_from_fields h
    rw [hone] at h2 h4
    refine ⟨h2.trans h1.symm, ?_⟩
    rw [h3] at h4
    injection h4 with h5
    exact h5.symm

/-- Witness for `c7_perfect_correlation` at `n = 4`, `seed = 5`. -/
theorem c7_perfect_correlation_witness :
    frameW45.perceived_ability_percentile = frameW45.test_score_percentile ∧
    frameW45.perceived_ability_quartile = frameW45.test_score_quartile :=
  c7_perfect_correlation 4 5 (by decide)

/-- C9, counterexample to the claim as stated: at the valid input
`participantCount = 1` (and a finite correlation coefficient) the generator
fails with the duplicate-breakpoint error of polars `qcut`, a failure mode that
is not one of the claimed `InvalidArgument` cases. -/
theorem c9_counterexample :
    generate_data (Rat.divInt 3 10) 1 11 = .error .duplicateBreaks :=
  generate_data_one _ (by decide)

/-- C9 (amended, for the finite coefficients representable in the model): the
generator succeeds exactly when the seed is non-negative and
`participantCount` is 0 or at least 2; its failure modes are the seed error of
`np.random.default_rng` on negative seeds, the sampling error on negative
counts, and the duplicate-breakpoint error of `qcut` at count 1.  The code
contains no validation of the correlation coefficient. -/
theorem c9_failure_modes (c : ℚ) (n : ℤ) (seed : ℤ) :
    ((∃ fr : Frame, generate_data c n seed = .ok fr) ↔
      (0 ≤ seed ∧ (n = 0 ∨ 2 ≤ n))) ∧
    (seed < 0 → generate_data c n seed = .error .negativeSeed) ∧
    (0 ≤ seed → n < 0 → generate_data c n seed = .error .negativeSize) ∧
    (0 ≤ seed → n = 1 → generate_data c n seed = .error .duplicateBreaks) := by
  refine ⟨⟨?_, ?_⟩, fun hs => generate_data_badseed c n hs,
    fun hs hn => generate_data_neg c hn hs,
    fun hs h1 => by rw [h1]; exact generate_data_one c hs⟩
  · rintro ⟨fr, hfr⟩
    rcases lt_or_ge seed 0 with hs | hs
    · rw [generate_data_badseed c n hs] at hfr
      cases hfr
    refine ⟨hs, ?_⟩
    by_contra hcon
    push_neg at hcon
    obtain ⟨hne0, hlt2⟩ := hcon
    rcases lt_trichotomy n 0 with hneg | h0 | hpos
    · rw [generate_data_neg c hneg hs] at hfr
      cases hfr
    · exact hne0 h0
    · have h1 : n = 1 := by omega
      subst h1
      rw [generate_data_one c hs] at hfr
      cases hfr
  · rintro ⟨hs, rfl | h2⟩
    · exact ⟨_, generate_data_zero c hs⟩
    · have hcast : n = ((n.toNat : ℕ) : ℤ) := (Int.toNat_of_nonneg (by omega)).symm
      rw [hcast]
      exact generate_data_ok c (by omega) hs

/-- Witness for `c9_failure_modes`: success at `(n, seed) = (4, 11)`, the seed
error at `seed = -1`, the size error at `n = -5`, and the breakpoint error at
`n = 1`. -/
theorem c9_failure_modes_witness :
    (∃ fr : Frame, generate_data (Rat.divInt 3 10) 4 11 = .ok fr) ∧
    generate_data (Rat.divInt 3 10) 4 (-1) = .error .negativeSeed ∧
    generate_data (Rat.divInt 3 10) (-5) 11 = .error .negativeSize ∧
    generate_data (Rat.divInt 3 10) 1 11 = .error .duplicateBreaks :=
  ⟨(c9_failure_modes (Rat.divInt 3 10) 4 11).1.mpr ⟨by decide, Or.inr (by decide)⟩,
   (c9_failure_modes (Rat.divInt 3 10) 4 (-1)).2.1 (by decide),
   (c9_failure_modes (Rat.divInt 3 10) (-5) 11).2.2.1 (by decide) (by decide),
   (c9_failure_modes (Rat.divInt 3 10) 1 11).2.2.2 (by decide) rfl⟩

/-- C10: in every successful generator output, two participants with equal
`test_score_percentile` values receive the same `test_score_quartile` label
(binning is a function of the percentile value), and likewise for the
perceived-ability columns. -/
theorem c10_equal_percentile_equal_quartile (c : ℚ) (test noise : List ℚ) {fr : Frame}
    (h : generate_from c test noise = .ok fr) :
    (∀ i j : ℕ, i < fr.test_score_percentile.length →
        j < fr.test_score_percentile.length →
        fr.test_score_percentile.getD i 0 = fr.test_score_percentile.getD j 0 →
        fr.test_score_quartile.getD i .Bottom = fr.test_score_quartile.getD j .Bottom) ∧
    (∀ i j : ℕ, i < fr.perceived_ability_percentile.length →
        j < fr.perceived_ability_percentile.length →
        fr.perceived_ability_percentile.getD i 0 = fr.perceived_ability_percentile.getD j 0 →
        fr.perceived_ability_quartile.getD i .Bottom =
          fr.perceived_ability_quartile.getD j .Bottom) := by
  obtain ⟨h1, h2, h3, h4⟩ := generate_from_fields h
  constructor
  · intro i j hi hj hv
    rw [h1] at hi hj hv
    exact labels_congr h3 hi hj hv
  · intro i j hi hj hv
    rw [h2] at hi hj hv
    exact labels_congr h4 hi hj hv

/-- Witness for `c10_equal_percentile_equal_quartile` on
`generate_from 0 [2,1,3] [0,0,0]` at equal percentile positions. -/
theorem c10_equal_percentile_equal_quartile_witness :
    frameW1.test_score_percentile.getD 0 0 = frameW1.test_score_percentile.getD 0 0 ∧
    frameW1.test_score_quartile.getD 0 .Bottom = frameW1.test_score_quartile.getD 0 .Bottom :=
  ⟨rfl,
   (c10_equal_percentile_equal_quartile 0 [2, 1, 3] [0, 0, 0] (by decide)).1 0 0
     (by decide) (by decide) rfl⟩

/-- Projecting the group keys back out of `groupByMean`. -/
theorem map_fst_mk {α β : Type} (keys : List α) (F : α → β) :
    ((keys.map (fun q => (q, F q))).map Prod.fst) = keys := by
  induction keys with
  | nil => rfl
  | cons x xs ih => rw [List.map_cons, List.map_cons, ih]

theorem count_map_test_row (t : List (Quartile × ℚ × ℚ)) (hnd : (t.map Prod.fst).Nodup)
    {q : Quartile} {a b : ℚ} (hmem : (q, a, b) ∈ t) :
    (t.map (fun r => (⟨r.1, "test_score", r.2.1⟩ : AvgRow))).count
      ⟨q, "test_score", a⟩ = 1 := by
  induction t with
  | nil => cases hmem
  | cons r t ih =>
      rw [List.map_cons] at hnd
      rw [List.map_cons, List.count_cons]
      rcases List.mem_cons.mp hmem with heq | hmem'
      · subst heq
        rw [if_pos (beq_iff_eq.mpr rfl)]
        have h0 : (t.map (fun r => (⟨r.1, "test_score", r.2.1⟩ : AvgRow))).count
            (⟨q, "test_score", a⟩ : AvgRow) = 0 :=
          List.count_eq_zero.mpr (by
            intro hmem'
            obtain ⟨r', hr', hrr⟩ := List.mem_map.mp hmem'
            refine (List.nodup_cons.mp hnd).1 ?_
            have hq' : r'.1 = q := congrArg AvgRow.quartile hrr
            rw [show ((q, a, b) : Quartile × ℚ × ℚ).1 = q from rfl, ← hq']
            exact List.mem_map_of_mem Prod.fst hr')
        rw [h0]
      · have hnotin := (List.nodup_cons.mp hnd).1
        rw [ih (List.nodup_cons.mp hnd).2 hmem']
        rw [if_neg (by
          simp only [beq_iff_eq]
          intro hc
          have hr1 : r.1 = q := congrArg AvgRow.quartile hc
          refine hnotin ?_
          rw [hr1]
          exact List.mem_map_of_mem Prod.fst hmem')]

theorem count_map_perceived_row (t : List (Quartile × ℚ × ℚ)) (hnd : (t.map Prod.fst).Nodup)
    {q : Quartile} {a b : ℚ} (hmem : (q, a, b) ∈ t) :
    (t.map (fun r => (⟨r.1, "perceived_ability", r.2.2⟩ : AvgRow))).count
      ⟨q, "perceived_ability", b⟩ = 1 := by
  induction t with
  | nil => cases hmem
  | cons r t ih =>
      rw [List.map_cons] at hnd
      rw [List.map_cons, List.count_cons]
      rcases List.mem_cons.mp hmem with heq | hmem'
      · subst heq
        rw [if_pos (beq_iff_eq.mpr rfl)]
        have h0 : (t.map (fun r => (⟨r.1, "perceived_ability", r.2.2⟩ : AvgRow))).count
            (⟨q, "perceived_ability", b⟩ : AvgRow) = 0 :=
          List.count_eq_zero.mpr (by
            intro hmem'
            obtain ⟨r', hr', hrr⟩ := List.mem_map.mp hmem'
            refine (List.nodup_cons.mp hnd).1 ?_
            have hq' : r'.1 = q := congrArg AvgRow.quartile hrr
            rw [show ((q, a, b) : Quartile × ℚ × ℚ).1 = q from rfl, ← hq']
            exact List.mem_map_of_mem Prod.fst hr')
        rw [h0]
      · have hnotin := (List.nodup_cons.mp hnd).1
        rw [ih (List.nodup_cons.mp hnd).2 hmem']
        rw [if_neg (by
          simp only [beq_iff_eq]
          intro hc
          have hr1 : r.1 = q := congrArg AvgRow.quartile hc
          refine hnotin ?_
          rw [hr1]
          exact List.mem_map_of_mem Prod.fst hmem')]

theorem meltAvg_count_test (t : List (Quartile × ℚ × ℚ)) (hnd : (t.map Prod.fst).Nodup)
    {q : Quartile} {a b : ℚ} (hmem : (q, a, b) ∈ t) :
    (meltAvg t).count ⟨q, "test_score", a⟩ = 1 := by
  have h0 : List.count (⟨q, "test_score", a⟩ : AvgRow)
      (t.map (fun r => (⟨r.1, "perceived_ability", r.2.2⟩ : AvgRow))) = 0 :=
    List.count_eq_zero.mpr (by
      intro hmem'
      obtain ⟨r, -, hr⟩ := List.mem_map.mp hmem'
      exact absurd (congrArg AvgRow.varName hr)
        (show ¬ ("perceived_ability" = "test_score") by decide))
  rw [meltAvg, List.count_append, h0, count_map_test_row t hnd hmem]

theorem meltAvg_count_perceived (t : List (Quartile × ℚ × ℚ)) (hnd : (t.map Prod.fst).Nodup)
    {q : Quartile} {a b : ℚ} (hmem : (q, a, b) ∈ t) :
    (meltAvg t).count ⟨q, "perceived_ability", b⟩ = 1 := by
  have h0 : List.count (⟨q, "perceived_ability", b⟩ : AvgRow)
      (t.map (fun r => (⟨r.1, "test_score", r.2.1⟩ : AvgRow))) = 0 :=
    List.count_eq_zero.mpr (by
      intro hmem'
      obtain ⟨r, -, hr⟩ := List.mem_map.mp hmem'
      exact absurd (congrArg AvgRow.varName hr)
        (show ¬ ("test_score" = "perceived_ability") by decide))
  rw [meltAvg, List.count_append, h0, count_map_perceived_row t hnd hmem]

theorem meltAvg_length (t : List (Quartile × ℚ × ℚ)) :
    (meltAvg t).length = 2 * t.length := by
  rw [meltAvg, List.length_append, List.length_map, List.length_map]
  omega

theorem groupByMean_length (rows : List (Quartile × ℕ × ℕ)) :
    (groupByMean rows).length = (groupKeys rows).length := by
  rw [groupByMean, List.length_map]

theorem meltAvg_mem {t : List (Quartile × ℚ × ℚ)} {row : AvgRow} (h : row ∈ meltAvg t) :
    row.quartile ∈ t.map Prod.fst ∧
    (row.varName = "test_score" ∨ row.varName = "perceived_ability") := by
  rw [meltAvg, List.mem_append] at h
  rcases h with h | h
  · obtain ⟨r, hr, rfl⟩ := List.mem_map.mp h
    exact ⟨List.mem_map_of_mem Prod.fst hr, Or.inl rfl⟩
  · obtain ⟨r, hr, rfl⟩ := List.mem_map.mp h
    exact ⟨List.mem_map_of_mem Prod.fst hr, Or.inr rfl⟩

/-- C8: for each quartile group present among the selected rows, the
quartile-average view emits exactly one `test_score` row and exactly one
`perceived_ability` row, each carrying the arithmetic mean of that percentile
column over exactly the participants of the group; the output has one row per
(present group, variable) pair and mentions no absent group.  The view is a
pure projection of the frame (no randomness is drawn and the frame is not
modified). -/
theorem c8_quartile_view (fr : Frame) (g : GroupCol) (q : Quartile)
    (hq : q ∈ groupKeys (selectRows fr g)) :
    (create_quartile_chart_data fr g).count
        ⟨q, "test_score", meanQ ((groupRows (selectRows fr g) q).map (fun r => r.2.1))⟩ = 1 ∧
    (create_quartile_chart_data fr g).count
        ⟨q, "perceived_ability",
         meanQ ((groupRows (selectRows fr g) q).map (fun r => r.2.2))⟩ = 1 ∧
    (create_quartile_chart_data fr g).length = 2 * (groupKeys (selectRows fr g)).length ∧
    (∀ row ∈ create_quartile_chart_data fr g,
        row.quartile ∈ groupKeys (selectRows fr g) ∧
        (row.varName = "test_score" ∨ row.varName = "perceived_ability")) := by
  have hnd : (groupKeys (selectRows fr g)).Nodup := List.nodup_dedup _
  have hfst : (groupByMean (selectRows fr g)).map Prod.fst = groupKeys (selectRows fr g) := by
    rw [groupByMean]
    exact map_fst_mk _ _
  have hnd' : ((groupByMean (selectRows fr g)).map Prod.fst).Nodup := by
    rw [hfst]
    exact hnd
  have hmemT : ((q, meanQ ((groupRows (selectRows fr g) q).map (fun r => r.2.1)),
      meanQ ((groupRows (selectRows fr g) q).map (fun r => r.2.2))) :
        Quartile × ℚ × ℚ) ∈ groupByMean (selectRows fr g) := by
    rw [groupByMean]
    exact List.mem_map_of_mem _ hq
  refine ⟨?_, ?_, ?_, ?_⟩
  · rw [create_quartile_chart_data]
    exact meltAvg_count_test _ hnd' hmemT
  · rw [create_quartile_chart_data]
    exact meltAvg_count_perceived _ hnd' hmemT
  · rw [create_quartile_chart_data, meltAvg_length, groupByMean_length]
  · intro row hrow
    rw [create_quartile_chart_data] at hrow
    obtain ⟨hmem, hvar⟩ := meltAvg_mem hrow
    rw [hfst] at hmem
    exact ⟨hmem, hvar⟩

/-- Witness for `c8_quartile_view` on a concrete two-participant frame, grouping
by `test_score_quartile`, group `Bottom`. -/
theorem c8_quartile_view_witness :
    Quartile.Bottom ∈ groupKeys (selectRows frameW8 .testScoreQuartile) ∧
    (create_quartile_chart_data frameW8 .testScoreQuartile).count
        ⟨.Bottom, "test_score",
         meanQ ((groupRows (selectRows frameW8 .testScoreQuartile) .Bottom).map
           (fun r => r.2.1))⟩ = 1 ∧
    (create_quartile_chart_data frameW8 .testScoreQuartile).count
        ⟨.Bottom, "perceived_ability",
         meanQ ((groupRows (selectRows frameW8 .testScoreQuartile) .Bottom).map
           (fun r => r.2.2))⟩ = 1 ∧
    (create_quartile_chart_data frameW8 .testScoreQuartile).length =
      2 * (groupKeys (selectRows frameW8 .testScoreQuartile)).length :=
  ⟨by decide,
   (c8_quartile_view frameW8 .testScoreQuartile .Bottom (by decide)).1,
   (c8_quartile_view frameW8 .testScoreQuartile .Bottom (by decide)).2.1,
   (c8_quartile_view frameW8 .testScoreQuartile .Bottom (by decide)).2.2.1⟩


end DunningKruger
